import Mathlib

/-!
Verification of the git import pipeline (`import_tools/src/lib.rs`).

This file gives a shallow embedding, in Lean, of the history-import pipeline:
the `GitimportAccumulator`, the `gitimport_acc` scheduler (resume filter,
bounded order-preserving extraction, sequential finalization, batched commit),
the `find_file_changes` resolver, the `read_git_refs` tag-peeling loop, and
`import_tree_as_single_bonsai_changeset`.  External collaborators (the git
object reader, the uploader / target store, the `bonsai_diff` primitive and
the commit extractor) are modelled as explicit function parameters, exactly
at the interface boundary at which the source consumes them.  The observable
calls the pipeline makes to its collaborators are recorded as an `Event`
trace so that claims about which operations are (not) issued can be stated.
-/

namespace GitImport

/-- Foreign object ids (git hashes) are modelled as naturals. -/
abbrev Oid := Nat

/-- Target-store changeset identities. -/
abbrev ChangesetId := Nat

/-- File paths inside a commit, modelled as naturals with their order. -/
abbrev MPath := Nat

/-- File modes / types are opaque to the pipeline. -/
abbrev FileTy := Nat

/-- Raw object bytes are opaque to the pipeline. -/
abbrev Bytes := Nat

/-- Ref names (`refs/heads/...`) are opaque to the pipeline. -/
abbrev RefName := Nat

/-- The store-internal changeset representation handed to `finalize_batch`. -/
abbrev IntCs := Nat

/-- Sha1 identities produced by `oid_to_sha1`. -/
abbrev Sha1 := Nat

/-- The uploader's per-file change record is opaque to the pipeline. -/
abbrev Change := Nat

/-- Errors surfaced by the pipeline.  Variants record the contextual data the
source attaches with `format_err!` / `with_context`: a missing parent names
both the parent and the commit being finalized, a ref resolving to a blob
names the ref, and collaborator failures are carried through. -/
inductive Err where
  | missingParent (parent : Oid) (commit : Oid)
  | notABlob (oid : Oid)
  | refPointsToBlob (name : RefName)
  | readObject (oid : Oid) (name : RefName)
  | external (code : Nat)
  deriving Repr, DecidableEq

/-- A parsed git object, as returned by the reader collaborator
(`object.parsed`): tree, blob (with its data), commit, or annotated tag
carrying its target id. -/
inductive ObjKind where
  | tree
  | blob (data : Bytes)
  | commit
  | tag (target : Oid)
  deriving Repr, DecidableEq

/-- Returns `true` exactly on `.error`. -/
def exceptIsError {ε α : Type} : Except ε α → Bool
  | .error _ => true
  | .ok _ => false

/-- Returns `true` exactly on `.ok`. -/
def exceptIsOk {ε α : Type} : Except ε α → Bool
  | .error _ => false
  | .ok _ => true

/-! ### Association lists

`LinkedHashMap` (the accumulator) and `SortedVectorMap` (the per-commit file
change map) are modelled as association lists: lookup is first-match, a
`LinkedHashMap` insert overwrites in place or appends, a `SortedVectorMap`
insert keeps the list sorted by key. -/

/-- First-match lookup in an association list. -/
def alistGet {β : Type} (k : Nat) : List (Nat × β) → Option β
  | [] => none
  | (k', v) :: rest => if k' = k then some v else alistGet k rest

/-- Model of `LinkedHashMap::insert`: overwrite the existing entry in place, or append
a fresh one at the back. -/
def lhmInsert {β : Type} (k : Nat) (v : β) : List (Nat × β) → List (Nat × β)
  | [] => [(k, v)]
  | (k', v') :: rest =>
      if k' = k then (k, v) :: rest else (k', v') :: lhmInsert k v rest

/-- Model of `SortedVectorMap` insert: keep the entries sorted by key, overwriting the
entry of an existing key. -/
def svmInsert {β : Type} (k : Nat) (v : β) : List (Nat × β) → List (Nat × β)
  | [] => [(k, v)]
  | (k', v') :: rest =>
      if k < k' then (k, v) :: (k', v') :: rest
      else if k = k' then (k, v) :: rest
      else (k', v') :: svmInsert k v rest

/-! ### GitimportAccumulator (lib.rs lines 110-136) -/

/-- Model of `GitimportAccumulator`: an insertion-ordered map from foreign object id
to target changeset id. -/
structure GitimportAccumulator where
  inner : List (Oid × ChangesetId)
  deriving Repr, DecidableEq

/-- Model of `GitimportAccumulator::new`. -/
def GitimportAccumulator.new : GitimportAccumulator := ⟨[]⟩

/-- Model of `GitimportAccumulator::len`. -/
def GitimportAccumulator.len (a : GitimportAccumulator) : Nat := a.inner.length

/-- Model of `GitimportAccumulator::is_empty`. -/
def GitimportAccumulator.is_empty (a : GitimportAccumulator) : Bool :=
  a.inner.isEmpty

/-- Model of `GitimportAccumulator::insert`. -/
def GitimportAccumulator.insert (a : GitimportAccumulator) (oid : Oid)
    (cs : ChangesetId) : GitimportAccumulator :=
  ⟨lhmInsert oid cs a.inner⟩

/-- Model of `GitimportAccumulator::get`. -/
def GitimportAccumulator.get (a : GitimportAccumulator) (oid : Oid) :
    Option ChangesetId :=
  alistGet oid a.inner

/-- The keys currently recorded in the accumulator. -/
def GitimportAccumulator.keys (a : GitimportAccumulator) : List Oid :=
  a.inner.map Prod.fst

theorem alistGet_lhmInsert_self {β : Type} (k : Nat) (v : β)
    (l : List (Nat × β)) : alistGet k (lhmInsert k v l) = some v := by
  induction l with
  | nil => simp [lhmInsert, alistGet]
  | cons hd tl ih =>
      obtain ⟨k', v'⟩ := hd
      by_cases h : k' = k
      · simp [lhmInsert, alistGet, h]
      · simp [lhmInsert, alistGet, h, ih]

theorem alistGet_lhmInsert_ne {β : Type} (k k' : Nat) (v : β)
    (l : List (Nat × β)) (h : k' ≠ k) :
    alistGet k' (lhmInsert k v l) = alistGet k' l := by
  have hk : ¬ (k = k') := fun hh => h hh.symm
  induction l with
  | nil => simp [lhmInsert, alistGet, hk]
  | cons hd tl ih =>
      obtain ⟨k0, v0⟩ := hd
      by_cases h0 : k0 = k
      · subst h0
        simp [lhmInsert, alistGet, hk]
      · simp [lhmInsert, alistGet, h0, ih]

theorem keys_lhmInsert_mem {β : Type} (k : Nat) (v : β) (l : List (Nat × β))
    (h : k ∈ l.map Prod.fst) :
    (lhmInsert k v l).map Prod.fst = l.map Prod.fst := by
  induction l with
  | nil => simp at h
  | cons hd tl ih =>
      obtain ⟨k0, v0⟩ := hd
      by_cases h0 : k0 = k
      · simp [lhmInsert, h0]
      · rw [List.map_cons, List.mem_cons] at h
        cases h with
        | inl h1 => exact absurd h1.symm h0
        | inr h2 => simp [lhmInsert, h0, ih h2]

theorem keys_lhmInsert_not_mem {β : Type} (k : Nat) (v : β)
    (l : List (Nat × β)) (h : k ∉ l.map Prod.fst) :
    (lhmInsert k v l).map Prod.fst = l.map Prod.fst ++ [k] := by
  induction l with
  | nil => simp [lhmInsert]
  | cons hd tl ih =>
      obtain ⟨k0, v0⟩ := hd
      have h1 : ¬ (k0 = k) := fun hh => h (by simp [hh])
      have h2 : k ∉ tl.map Prod.fst := fun hh => h (by simp [hh])
      simp [lhmInsert, h1, ih h2]

theorem length_lhmInsert {β : Type} (k : Nat) (v : β) (l : List (Nat × β)) :
    (lhmInsert k v l).length =
      if k ∈ l.map Prod.fst then l.length else l.length + 1 := by
  by_cases h : k ∈ l.map Prod.fst
  · have := congrArg List.length (keys_lhmInsert_mem k v l h)
    simpa [h] using this
  · have := congrArg List.length (keys_lhmInsert_not_mem k v l h)
    simpa [h] using this

theorem nodup_keys_lhmInsert {β : Type} (k : Nat) (v : β)
    (l : List (Nat × β)) (h : (l.map Prod.fst).Nodup) :
    ((lhmInsert k v l).map Prod.fst).Nodup := by
  by_cases hm : k ∈ l.map Prod.fst
  · rw [keys_lhmInsert_mem k v l hm]; exact h
  · rw [keys_lhmInsert_not_mem k v l hm, List.nodup_append]
    refine ⟨h, List.nodup_singleton k, ?_⟩
    intro a ha hb
    rw [List.mem_singleton] at hb
    subst hb
    exact hm ha

theorem alistGet_not_mem {β : Type} (k : Nat) (l : List (Nat × β))
    (h : k ∉ l.map Prod.fst) : alistGet k l = none := by
  induction l with
  | nil => rfl
  | cons hd tl ih =>
      obtain ⟨k0, v0⟩ := hd
      have h1 : ¬ (k0 = k) := fun hh => h (by simp [hh])
      have h2 : k ∉ tl.map Prod.fst := fun hh => h (by simp [hh])
      simp [alistGet, h1, ih h2]

/-- C9: the `GitimportAccumulator` contract: `get` after `insert` of the same
oid returns the inserted changeset id; a never-inserted oid reads back as
`none` and other keys are unaffected by an insert; inserting an oid already
present overwrites without adding a duplicate entry, so under the no-duplicate
invariant `len` counts distinct oids (unchanged on overwrite, one more on a
fresh key, keys stay duplicate-free); and `is_empty` holds exactly when `len`
is zero. -/
theorem accumulator_contract (a : GitimportAccumulator)
    (h : a.keys.Nodup) (oid : Oid) (cs : ChangesetId) :
    ((a.insert oid cs).get oid = some cs)
    ∧ (∀ o, o ∉ a.keys → a.get o = none)
    ∧ (∀ o, o ≠ oid → (a.insert oid cs).get o = a.get o)
    ∧ ((a.insert oid cs).keys.Nodup)
    ∧ ((a.insert oid cs).len = if oid ∈ a.keys then a.len else a.len + 1)
    ∧ (a.is_empty = true ↔ a.len = 0) := by
  refine ⟨?_, ?_, ?_, ?_, ?_, ?_⟩
  · exact alistGet_lhmInsert_self oid cs a.inner
  · exact fun o ho => alistGet_not_mem o a.inner ho
  · exact fun o ho => alistGet_lhmInsert_ne oid o cs a.inner ho
  · exact nodup_keys_lhmInsert oid cs a.inner h
  · exact length_lhmInsert oid cs a.inner
  · simp [GitimportAccumulator.is_empty, GitimportAccumulator.len,
      List.isEmpty_iff_length_eq_zero]

/-- Witness for `accumulator_contract` at a concrete state. -/
theorem accumulator_contract_witness :
    (((⟨[(1, 10)]⟩ : GitimportAccumulator).insert 2 20).get 2 = some 20) := by
  exact (accumulator_contract ⟨[(1, 10)]⟩ (by simp [GitimportAccumulator.keys])
    2 20).1

/-! ### read_git_refs and the tag-peeling loop (lib.rs lines 351-410)

The `loop` at lines 379-406 peels annotated-tag chains.  The source loop has
no iteration bound, so the embedding takes an explicit fuel argument: a
`none` result means the fuel ran out before the loop exited, which is the
shallow image of nontermination. -/

/-- Model of `GitRef` (lib.rs lines 337-340): a named ref together with the outermost
annotated-tag id when the ref was reached through tags. -/
structure GitRef where
  name : RefName
  maybe_tag_id : Option Oid
  deriving Repr, DecidableEq

/-- The tag-peeling loop of `read_git_refs`: fetch the object at `oid`; a
tree breaks out with no ref recorded, a blob fails naming the ref, a commit
resolves to the current `maybeTag` and the commit id, and a tag records the
outermost tag id the first time one is seen and continues at the tag's
target.  A reader failure is surfaced with the offending id and ref attached
(`with_context` in the source). -/
def peelObject (get : Oid → Except Err ObjKind) (refName : RefName)
    (maybeTag : Option Oid) (oid : Oid) :
    Nat → Option (Except Err (Option (Option Oid × Oid)))
  | 0 => none
  | fuel + 1 =>
      match get oid with
      | .error _ => some (.error (.readObject oid refName))
      | .ok .tree => some (.ok none)
      | .ok (.blob _) => some (.error (.refPointsToBlob refName))
      | .ok .commit => some (.ok (some (maybeTag, oid)))
      | .ok (.tag target) =>
          peelObject get refName
            (if maybeTag.isNone then some oid else maybeTag) target fuel

/-- Model of `read_git_refs`: process the `for-each-ref` lines in order; each line
peels its object chain, commits are recorded in the returned map, trees are
skipped, and a blob or reader failure aborts the whole call.  `none` means
some line's peeling loop ran out of fuel. -/
def read_git_refs (get : Oid → Except Err ObjKind) (fuel : Nat) :
    List (Oid × RefName) → Option (Except Err (List (GitRef × Oid)))
  | [] => some (.ok [])
  | (oid, refName) :: rest =>
      match peelObject get refName none oid fuel with
      | none => none
      | some (.error e) => some (.error e)
      | some (.ok none) => read_git_refs get fuel rest
      | some (.ok (some (mt, commitOid))) =>
          match read_git_refs get fuel rest with
          | none => none
          | some (.error e) => some (.error e)
          | some (.ok m) => some (.ok ((⟨refName, mt⟩, commitOid) :: m))

/-- C5: ref resolution cases.  A chain Tag1 → Tag2 → Commit resolves the ref
to the commit id with `maybe_tag_id` equal to the outermost tag Tag1; a ref
reaching a blob makes `read_git_refs` fail with an error naming the ref; and
a ref whose object is a tree is skipped — processing the line is the same as
dropping it, so no entry is recorded for that ref. -/
theorem ref_resolution_cases (get : Oid → Except Err ObjKind) (name : RefName) :
    (∀ t1 t2 c fuel, get t1 = .ok (.tag t2) → get t2 = .ok (.tag c) →
        get c = .ok .commit → 3 ≤ fuel →
        read_git_refs get fuel [(t1, name)] =
          some (.ok [(⟨name, some t1⟩, c)]))
    ∧ (∀ b d fuel, get b = .ok (.blob d) → 1 ≤ fuel →
        read_git_refs get fuel [(b, name)] =
          some (.error (.refPointsToBlob name)))
    ∧ (∀ t fuel lines, get t = .ok .tree → 1 ≤ fuel →
        read_git_refs get fuel ((t, name) :: lines) =
          read_git_refs get fuel lines) := by
  refine ⟨?_, ?_, ?_⟩
  · intro t1 t2 c fuel h1 h2 h3 hf
    obtain ⟨k, rfl⟩ := Nat.exists_eq_add_of_le' hf
    simp [read_git_refs, peelObject, h1, h2, h3,
      show k + 3 = k + 2 + 1 from rfl, show k + 2 = k + 1 + 1 from rfl]
  · intro b d fuel h1 hf
    obtain ⟨k, rfl⟩ := Nat.exists_eq_add_of_le' hf
    simp [read_git_refs, peelObject, h1]
  · intro t fuel lines h1 hf
    obtain ⟨k, rfl⟩ := Nat.exists_eq_add_of_le' hf
    simp [read_git_refs, peelObject, h1]

/-- Witness for `ref_resolution_cases`: a concrete two-tag chain. -/
theorem ref_resolution_cases_witness :
    read_git_refs
      (fun o => if o = 0 then .ok (.tag 1) else
        if o = 1 then .ok (.tag 2) else
        if o = 2 then .ok .commit else .ok .tree)
      3 [(0, 7)] = some (.ok [(⟨7, some 0⟩, 2)]) := by
  exact (ref_resolution_cases
      (fun o => if o = 0 then .ok (.tag 1) else
        if o = 1 then .ok (.tag 2) else
        if o = 2 then .ok .commit else .ok .tree) 7).1
    0 1 2 3 (by simp) (by simp) (by simp) (by simp)

/-- Witnesses that the peeling loop of `peelObject` exits after finitely many
tag hops: the object at `oid` reaches a non-tag object within `n` fetches. -/
inductive PeelTerminates (get : Oid → Except Err ObjKind) : Oid → Nat → Prop
  | done (oid : Oid) : (∀ t, get oid ≠ .ok (.tag t)) → PeelTerminates get oid 1
  | tag (oid t : Oid) (n : Nat) : get oid = .ok (.tag t) →
      PeelTerminates get t n → PeelTerminates get oid (n + 1)

/-- C8: the tag-peeling loop terminates exactly under acyclicity.  If the
chain of tag targets from `oid` reaches a non-tag object within `n` hops,
then any fuel of at least `n` makes `peelObject` produce a result, and the
result no longer depends on the fuel; conversely the loop imposes no bound of
its own: on a self-referential tag no amount of fuel produces a result. -/
theorem tag_peel_termination (get : Oid → Except Err ObjKind) :
    (∀ oid n, PeelTerminates get oid n → ∀ refName maybeTag fuel, n ≤ fuel →
        (peelObject get refName maybeTag oid fuel).isSome = true
        ∧ peelObject get refName maybeTag oid fuel =
            peelObject get refName maybeTag oid n)
    ∧ (∀ oid, get oid = .ok (.tag oid) → ∀ refName maybeTag fuel,
        peelObject get refName maybeTag oid fuel = none) := by
  constructor
  · intro oid n hterm
    induction hterm with
    | done o hnt =>
        intro refName maybeTag fuel hf
        obtain ⟨k, rfl⟩ := Nat.exists_eq_add_of_le' hf
        have hstep : ∀ j, peelObject get refName maybeTag o (j + 1) =
            peelObject get refName maybeTag o (0 + 1) := by
          intro j
          match hg : get o with
          | .error e => simp [peelObject, hg]
          | .ok .tree => simp [peelObject, hg]
          | .ok (.blob d) => simp [peelObject, hg]
          | .ok .commit => simp [peelObject, hg]
          | .ok (.tag t) => exact absurd hg (hnt t)
        constructor
        · rw [hstep k]
          match hg : get o with
          | .error e => simp [peelObject, hg]
          | .ok .tree => simp [peelObject, hg]
          | .ok (.blob d) => simp [peelObject, hg]
          | .ok .commit => simp [peelObject, hg]
          | .ok (.tag t) => exact absurd hg (hnt t)
        · show peelObject get refName maybeTag o (k + 1) =
            peelObject get refName maybeTag o 1
          rw [hstep k]
    | tag o t m hg _hrec ih =>
        intro refName maybeTag fuel hf
        obtain ⟨k, rfl⟩ := Nat.exists_eq_add_of_le' hf
        rw [show k + (m + 1) = k + m + 1 from rfl]
        have h1 := ih refName (if maybeTag.isNone then some o else maybeTag)
          (k + m) (Nat.le_add_left m k)
        constructor
        · simp only [peelObject, hg]
          exact h1.1
        · simp only [peelObject, hg]
          exact h1.2
  · intro oid hg refName maybeTag fuel
    induction fuel generalizing maybeTag with
    | zero => rfl
    | succ n ih => simp [peelObject, hg, ih]

/-- Witness for `tag_peel_termination`: a two-hop chain terminates with fuel
2 and a self-loop never does. -/
theorem tag_peel_termination_witness :
    ((peelObject (fun o => if o = 0 then .ok (.tag 1) else .ok .commit)
        5 none 0 9).isSome = true)
    ∧ peelObject (fun _ => .ok (.tag 3)) 5 none 3 9 = none := by
  constructor
  · exact ((tag_peel_termination
        (fun o => if o = 0 then .ok (.tag 1) else .ok .commit)).1 0 2
      (PeelTerminates.tag 0 1 1 (by simp)
        (PeelTerminates.done 1 (by intro t; simp)))
      5 none 9 (by omega)).1
  · exact (tag_peel_termination (fun _ => .ok (.tag 3))).2 3 rfl 5 none 9

/-! ### The uploader interface and the observable event trace -/

/-- Model of `CommitMetadata`: the parsed commit header fields the scheduler consumes
(its own id and the ordered parent id list; author and message are opaque to
the control flow and omitted). -/
structure CommitMetadata where
  oid : Oid
  parents : List Oid
  deriving Repr, DecidableEq

/-- The `GitUploader` trait (target store collaborator), consumed at its
interface boundary: each operation is a pure function of its arguments. -/
structure GitUploader where
  check_commit_uploaded : Oid → Except Err (Option ChangesetId)
  upload_file : MPath → FileTy → Oid → Bytes → Except Err Change
  deleted : Change
  upload_object : Oid → Bytes → Except Err Unit
  generate_changeset : List ChangesetId → CommitMetadata →
    List (MPath × Change) → Bool → Except Err (IntCs × ChangesetId)
  finalize_batch : Bool → List (IntCs × Sha1) → Except Err Unit

/-- Model of `oid_to_sha1`: the external conversion from a foreign object id to the
sha1 identity carried into `finalize_batch`; on the abstract id space it is
the identity embedding. -/
def oid_to_sha1 (o : Oid) : Sha1 := o

/-- The observable calls the pipeline makes to its collaborators.
`bonsai_diff_call` and `generate_changeset` are tagged with the commit being
processed so absence-of-work claims can be stated. -/
inductive Event where
  | get_nb_commits
  | list_commits
  | check_commit (oid : Oid)
  | extract_commit (oid : Oid)
  | bonsai_diff_call (commit : Oid) (tree : Oid) (parentTrees : List Oid)
  | get_object (oid : Oid)
  | upload_file (path : MPath) (oid : Oid)
  | upload_object (oid : Oid)
  | generate_changeset (commit : Oid) (parents : List ChangesetId)
  | finalize_batch (batch : List (IntCs × Sha1))
  deriving Repr, DecidableEq

/-! ### find_file_changes (lib.rs lines 66-108) -/

/-- Model of `BonsaiDiffFileChange`: one per-path record of the tree diff. -/
inductive BonsaiDiffFileChange where
  | changed (path : MPath) (ty : FileTy) (oid : Oid)
  | changedReusedId (path : MPath) (ty : FileTy) (oid : Oid)
  | deleted (path : MPath)
  deriving Repr, DecidableEq

/-- The path of a diff record. -/
def diffPath : BonsaiDiffFileChange → MPath
  | .changed path _ _ => path
  | .changedReusedId path _ _ => path
  | .deleted path => path

/-- Resolution of one diff record (the spawned task body in
`find_file_changes`): a changed path fetches the referenced blob (failing if
the object is not a blob) and uploads it, a deleted path maps to the
uploader's deleted sentinel with no reader or store call. -/
def resolveFileChange (get : Oid → Except Err ObjKind) (u : GitUploader) :
    BonsaiDiffFileChange → List Event × Except Err (MPath × Change)
  | .changed path ty oid =>
      (match get oid with
       | .error e => ([.get_object oid], .error e)
       | .ok (.blob d) =>
           (match u.upload_file path ty oid d with
            | .error e => ([.get_object oid, .upload_file path oid], .error e)
            | .ok c => ([.get_object oid, .upload_file path oid], .ok (path, c)))
       | .ok _ => ([.get_object oid], .error (.notABlob oid)))
  | .changedReusedId path ty oid =>
      (match get oid with
       | .error e => ([.get_object oid], .error e)
       | .ok (.blob d) =>
           (match u.upload_file path ty oid d with
            | .error e => ([.get_object oid, .upload_file path oid], .error e)
            | .ok c => ([.get_object oid, .upload_file path oid], .ok (path, c)))
       | .ok _ => ([.get_object oid], .error (.notABlob oid)))
  | .deleted path => ([], .ok (path, u.deleted))

/-- The resolved (path, change) pairs of a diff record stream, in stream
order, aborting at the first failed record (stream error or resolution
error). -/
def findFileChangesList (get : Oid → Except Err ObjKind) (u : GitUploader) :
    List (Except Err BonsaiDiffFileChange) →
      List Event × Except Err (List (MPath × Change))
  | [] => ([], .ok [])
  | .error e :: _ => ([], .error e)
  | .ok fc :: rest =>
      match resolveFileChange get u fc with
      | (evs, .error e) => (evs, .error e)
      | (evs, .ok pc) =>
          match findFileChangesList get u rest with
          | (evs', r) => (evs ++ evs', r.map (fun l => pc :: l))

/-- Build the `SortedVectorMap` from resolved pairs. -/
def svmOfList (l : List (MPath × Change)) : List (MPath × Change) :=
  l.foldl (fun m pc => svmInsert pc.1 pc.2 m) []

/-- Model of `find_file_changes`: resolve every record of the diff stream and collect
the results into a path-keyed sorted map; any single failure fails the whole
change set. -/
def find_file_changes (get : Oid → Except Err ObjKind) (u : GitUploader)
    (changes : List (Except Err BonsaiDiffFileChange)) :
    List Event × Except Err (List (MPath × Change)) :=
  match findFileChangesList get u changes with
  | (evs, r) => (evs, r.map svmOfList)

theorem exceptIsError_map {ε α β : Type} (f : α → β) (r : Except ε α) :
    exceptIsError (r.map f) = exceptIsError r := by
  cases r <;> rfl

theorem exceptIsOk_exists {ε α : Type} (r : Except ε α)
    (h : exceptIsOk r = true) : ∃ v, r = .ok v := by
  cases r with
  | error e => simp [exceptIsOk] at h
  | ok v => exact ⟨v, rfl⟩

theorem resolveFileChange_ok_path (get : Oid → Except Err ObjKind)
    (u : GitUploader) (fc : BonsaiDiffFileChange) (p : MPath) (c : Change)
    (h : (resolveFileChange get u fc).2 = .ok (p, c)) : p = diffPath fc := by
  cases fc with
  | changed path ty oid =>
      match hg : get oid with
      | .error e => simp [resolveFileChange, hg] at h
      | .ok .tree => simp [resolveFileChange, hg] at h
      | .ok .commit => simp [resolveFileChange, hg] at h
      | .ok (.tag t) => simp [resolveFileChange, hg] at h
      | .ok (.blob d) =>
          match hu : u.upload_file path ty oid d with
          | .error e => simp [resolveFileChange, hg, hu] at h
          | .ok c' =>
              simp [resolveFileChange, hg, hu] at h
              simp [diffPath]
              exact h.1.symm
  | changedReusedId path ty oid =>
      match hg : get oid with
      | .error e => simp [resolveFileChange, hg] at h
      | .ok .tree => simp [resolveFileChange, hg] at h
      | .ok .commit => simp [resolveFileChange, hg] at h
      | .ok (.tag t) => simp [resolveFileChange, hg] at h
      | .ok (.blob d) =>
          match hu : u.upload_file path ty oid d with
          | .error e => simp [resolveFileChange, hg, hu] at h
          | .ok c' =>
              simp [resolveFileChange, hg, hu] at h
              simp [diffPath]
              exact h.1.symm
  | deleted path =>
      simp [resolveFileChange] at h
      simp [diffPath]
      exact h.1.symm

theorem findFileChangesList_all_ok (get : Oid → Except Err ObjKind)
    (u : GitUploader) (recs : List BonsaiDiffFileChange)
    (h : ∀ fc ∈ recs, exceptIsOk (resolveFileChange get u fc).2 = true) :
    ∃ pairs, (findFileChangesList get u (recs.map Except.ok)).2 = .ok pairs
      ∧ pairs.map Prod.fst = recs.map diffPath
      ∧ (∀ fc ∈ recs, ∀ p c,
          (resolveFileChange get u fc).2 = .ok (p, c) → (p, c) ∈ pairs) := by
  induction recs with
  | nil => exact ⟨[], rfl, rfl, by simp⟩
  | cons fc rest ih =>
      have hfc := h fc (List.mem_cons_self fc rest)
      obtain ⟨⟨p, c⟩, hok⟩ := exceptIsOk_exists _ hfc
      obtain ⟨pairs, hrest, hmap, hmem⟩ :=
        ih (fun fc' hm => h fc' (List.mem_cons_of_mem fc hm))
      rcases hres : resolveFileChange get u fc with ⟨evs, r⟩
      have hr : r = .ok (p, c) := by rw [hres] at hok; exact hok
      subst hr
      rcases hrest' : findFileChangesList get u (rest.map Except.ok)
        with ⟨evs', r'⟩
      have hr' : r' = .ok pairs := by rw [hrest'] at hrest; exact hrest
      subst hr'
      refine ⟨(p, c) :: pairs, ?_, ?_, ?_⟩
      · simp [findFileChangesList, hres, hrest', Except.map]
      · have hp : p = diffPath fc :=
          resolveFileChange_ok_path get u fc p c (by rw [hres])
        simp [hp, hmap]
      · intro fc' hm p' c' hok'
        rw [List.mem_cons] at hm
        cases hm with
        | inl h1 =>
            subst h1
            rw [hres] at hok'
            simp at hok'
            simp [hok'.1, hok'.2]
        | inr h2 => exact List.mem_cons_of_mem _ (hmem fc' h2 p' c' hok')

theorem findFileChangesList_some_error (get : Oid → Except Err ObjKind)
    (u : GitUploader) (recs : List BonsaiDiffFileChange)
    (h : ∃ fc ∈ recs, exceptIsError (resolveFileChange get u fc).2 = true) :
    exceptIsError (findFileChangesList get u (recs.map Except.ok)).2 = true := by
  induction recs with
  | nil => simp at h
  | cons fc rest ih =>
      rcases hres : resolveFileChange get u fc with ⟨evs, r⟩
      cases r with
      | error e => simp [findFileChangesList, hres, exceptIsError]
      | ok pc =>
          obtain ⟨fc0, hm0, herr0⟩ := h
          rw [List.mem_cons] at hm0
          cases hm0 with
          | inl h1 =>
              subst h1
              rw [hres] at herr0
              simp [exceptIsError] at herr0
          | inr h2 =>
              have := ih ⟨fc0, h2, herr0⟩
              rcases hrest : findFileChangesList get u (rest.map Except.ok)
                with ⟨evs', r'⟩
              rw [hrest] at this
              cases r' with
              | error e' =>
                  simp [findFileChangesList, hres, hrest, exceptIsError,
                    Except.map]
              | ok l => simp [exceptIsError] at this

theorem alistGet_svmInsert_self {β : Type} (k : Nat) (v : β)
    (l : List (Nat × β)) : alistGet k (svmInsert k v l) = some v := by
  induction l with
  | nil => simp [svmInsert, alistGet]
  | cons hd tl ih =>
      obtain ⟨k0, v0⟩ := hd
      by_cases h1 : k < k0
      · simp [svmInsert, alistGet, h1]
      · by_cases h2 : k = k0
        · subst h2
          simp [svmInsert, alistGet, h1]
        · have h3 : ¬ (k0 = k) := fun hh => h2 hh.symm
          simp [svmInsert, alistGet, h1, h2, h3, ih]

theorem alistGet_svmInsert_ne {β : Type} (k k' : Nat) (v : β)
    (l : List (Nat × β)) (h : k' ≠ k) :
    alistGet k' (svmInsert k v l) = alistGet k' l := by
  have hk : ¬ (k = k') := fun hh => h hh.symm
  induction l with
  | nil => simp [svmInsert, alistGet, hk]
  | cons hd tl ih =>
      obtain ⟨k0, v0⟩ := hd
      by_cases h1 : k < k0
      · simp [svmInsert, alistGet, h1, hk]
      · by_cases h2 : k = k0
        · subst h2
          simp [svmInsert, alistGet, h1, hk]
        · simp [svmInsert, alistGet, h1, h2, ih]

theorem alistGet_foldl_svmInsert_not_mem {β : Type} (p : Nat)
    (l : List (Nat × β)) (init : List (Nat × β))
    (h : p ∉ l.map Prod.fst) :
    alistGet p (l.foldl (fun m pc => svmInsert pc.1 pc.2 m) init) =
      alistGet p init := by
  induction l generalizing init with
  | nil => rfl
  | cons hd tl ih =>
      obtain ⟨k0, v0⟩ := hd
      have h1 : ¬ (p = k0) := fun hh => h (by simp [hh])
      have h2 : p ∉ tl.map Prod.fst := fun hh => h (by simp [hh])
      rw [List.foldl_cons, ih _ h2]
      exact alistGet_svmInsert_ne k0 p v0 init h1

theorem alistGet_foldl_svmInsert_mem {β : Type} (p : Nat) (v : β)
    (l : List (Nat × β)) (init : List (Nat × β))
    (hnd : (l.map Prod.fst).Nodup) (h : (p, v) ∈ l) :
    alistGet p (l.foldl (fun m pc => svmInsert pc.1 pc.2 m) init) = some v := by
  induction l generalizing init with
  | nil => simp at h
  | cons hd tl ih =>
      obtain ⟨k0, v0⟩ := hd
      rw [List.map_cons, List.nodup_cons] at hnd
      rw [List.mem_cons] at h
      cases h with
      | inl h1 =>
          rw [Prod.mk.injEq] at h1
          obtain ⟨hk, hv⟩ := h1
          subst hk; subst hv
          rw [List.foldl_cons,
            alistGet_foldl_svmInsert_not_mem p tl _ hnd.1]
          exact alistGet_svmInsert_self p v init
      | inr h2 => exact ih _ hnd.2 h2

/-- C7: the `find_file_changes` contract over a stream of diff records with
unique paths.  When every record resolves, the result is `ok` of a map whose
entries are exactly one per input record — a deleted path maps to the deleted
sentinel with no blob fetch and no upload, a changed path maps to the
uploader's result on the fetched blob — and no other path is present.  If
any single record fails to resolve, the whole change set is an error. -/
theorem find_file_changes_contract (get : Oid → Except Err ObjKind)
    (u : GitUploader) (recs : List BonsaiDiffFileChange)
    (hnd : (recs.map diffPath).Nodup) :
    ((∀ fc ∈ recs, exceptIsOk (resolveFileChange get u fc).2 = true) →
        ∃ m, (find_file_changes get u (recs.map Except.ok)).2 = .ok m
          ∧ (∀ fc ∈ recs, ∀ p c,
              (resolveFileChange get u fc).2 = .ok (p, c) →
              p = diffPath fc ∧ alistGet p m = some c)
          ∧ (∀ p, p ∉ recs.map diffPath → alistGet p m = none))
    ∧ (∀ p, resolveFileChange get u (.deleted p) = ([], .ok (p, u.deleted)))
    ∧ (∀ p ty o d c, get o = .ok (.blob d) → u.upload_file p ty o d = .ok c →
        (resolveFileChange get u (.changed p ty o)).2 = .ok (p, c))
    ∧ ((∃ fc ∈ recs, exceptIsError (resolveFileChange get u fc).2 = true) →
        exceptIsError (find_file_changes get u (recs.map Except.ok)).2 = true) := by
  refine ⟨?_, ?_, ?_, ?_⟩
  · intro hall
    obtain ⟨pairs, hok, hmap, hmem⟩ :=
      findFileChangesList_all_ok get u recs hall
    rcases hl : findFileChangesList get u (recs.map Except.ok) with ⟨evs, r⟩
    have hr : r = .ok pairs := by rw [hl] at hok; exact hok
    subst hr
    refine ⟨svmOfList pairs, ?_, ?_, ?_⟩
    · simp [find_file_changes, hl, Except.map]
    · intro fc hm p c hres
      have hp : p = diffPath fc := resolveFileChange_ok_path get u fc p c hres
      refine ⟨hp, ?_⟩
      have hnd' : (pairs.map Prod.fst).Nodup := by rw [hmap]; exact hnd
      exact alistGet_foldl_svmInsert_mem p c pairs [] hnd' (hmem fc hm p c hres)
    · intro p hp
      have hp' : p ∉ pairs.map Prod.fst := by rw [hmap]; exact hp
      exact alistGet_foldl_svmInsert_not_mem p pairs [] hp'
  · intro p
    rfl
  · intro p ty o d c hg hu
    simp [resolveFileChange, hg, hu]
  · intro h
    have := findFileChangesList_some_error get u recs h
    rcases hl : findFileChangesList get u (recs.map Except.ok) with ⟨evs, r⟩
    rw [hl] at this
    simp [find_file_changes, hl, exceptIsError_map]
    exact this

/-- Witness for `find_file_changes_contract`: a deleted record resolves to
the deleted sentinel with no events, at a concrete uploader. -/
theorem find_file_changes_contract_witness :
    resolveFileChange (fun _ => .ok (.blob 3))
      ⟨fun _ => .ok none, fun _ _ _ d => .ok (d + 1), 0,
        fun _ _ => .ok (), fun _ _ _ _ => .ok (0, 0), fun _ _ => .ok ()⟩
      (.deleted 1) = ([], .ok (1, 0)) := by
  exact (find_file_changes_contract (fun _ => .ok (.blob 3))
      ⟨fun _ => .ok none, fun _ _ _ d => .ok (d + 1), 0,
        fun _ _ => .ok (), fun _ _ _ _ => .ok (0, 0), fun _ _ => .ok ()⟩
      [.deleted 1] (by simp)).2.1 1

/-! ### Parent resolution in the finalize stage (lib.rs lines 250-266) -/

/-- Resolution of the listed parents of the commit being finalized: each
parent id is looked up first in the pre-supplied root mapping and, only when
absent there, in the accumulator; a parent absent from both fails the whole
collection with a missing-parent error carrying the parent id and (from the
surrounding `with_context`) the commit id.  The `collect` into a `Result`
short-circuits at the first failing parent. -/
def resolveParents (roots : Oid → Option ChangesetId)
    (acc : GitimportAccumulator) (commit : Oid) :
    List Oid → Except Err (List ChangesetId)
  | [] => .ok []
  | p :: rest =>
      match roots p with
      | some c => (resolveParents roots acc commit rest).map (fun cs => c :: cs)
      | none =>
          match acc.get p with
          | some c =>
              (resolveParents roots acc commit rest).map (fun cs => c :: cs)
          | none => .error (.missingParent p commit)

/-- C2: parent resolution during finalization fails exactly when some listed
parent is absent from both the root mapping and the accumulator; the error it
fails with names both that missing parent and the commit being finalized; and
on success each parent resolves to its root-mapping entry when one exists,
consulting the accumulator only otherwise. -/
theorem parent_resolution_contract (roots : Oid → Option ChangesetId)
    (acc : GitimportAccumulator) (commit : Oid) (ps : List Oid) :
    (exceptIsError (resolveParents roots acc commit ps) = true ↔
        ∃ p ∈ ps, roots p = none ∧ acc.get p = none)
    ∧ (∀ e, resolveParents roots acc commit ps = .error e →
        ∃ p ∈ ps, roots p = none ∧ acc.get p = none
          ∧ e = .missingParent p commit)
    ∧ (∀ cs, resolveParents roots acc commit ps = .ok cs →
        cs = ps.map (fun p =>
          match roots p with
          | some c => c
          | none => (acc.get p).getD 0)) := by
  induction ps with
  | nil =>
      refine ⟨?_, ?_, ?_⟩
      · simp [resolveParents, exceptIsError]
      · intro e he
        simp [resolveParents] at he
      · intro cs hcs
        simp [resolveParents] at hcs
        simp [hcs]
  | cons p rest ih =>
      obtain ⟨ih1, ih2, ih3⟩ := ih
      refine ⟨?_, ?_, ?_⟩
      · constructor
        · intro herr
          match hr : roots p with
          | some c =>
              rw [resolveParents, hr] at herr
              rcases htail : resolveParents roots acc commit rest with e | cs
              · obtain ⟨q, hq, h1, h2⟩ := ih1.mp (by rw [htail]; rfl)
                exact ⟨q, List.mem_cons_of_mem p hq, h1, h2⟩
              · rw [htail] at herr
                simp [Except.map, exceptIsError] at herr
          | none =>
              match ha : acc.get p with
              | some c =>
                  rw [resolveParents, hr, ha] at herr
                  rcases htail : resolveParents roots acc commit rest with e | cs
                  · obtain ⟨q, hq, h1, h2⟩ := ih1.mp (by rw [htail]; rfl)
                    exact ⟨q, List.mem_cons_of_mem p hq, h1, h2⟩
                  · rw [htail] at herr
                    simp [Except.map, exceptIsError] at herr
              | none => exact ⟨p, List.mem_cons_self p rest, hr, ha⟩
        · rintro ⟨q, hq, h1, h2⟩
          rw [List.mem_cons] at hq
          cases hq with
          | inl heq =>
              subst heq
              simp [resolveParents, h1, h2, exceptIsError]
          | inr hmem =>
              have htail := ih1.mpr ⟨q, hmem, h1, h2⟩
              rcases hres : resolveParents roots acc commit rest with e | cs
              · match hr : roots p with
                | some c => simp [resolveParents, hr, hres, Except.map,
                    exceptIsError]
                | none =>
                    match ha : acc.get p with
                    | some c => simp [resolveParents, hr, ha, hres, Except.map,
                        exceptIsError]
                    | none => simp [resolveParents, hr, ha, exceptIsError]
              · rw [hres] at htail
                simp [exceptIsError] at htail
      · intro e he
        match hr : roots p with
        | some c =>
            rw [resolveParents, hr] at he
            rcases htail : resolveParents roots acc commit rest with e' | cs
            · rw [htail] at he
              simp [Except.map] at he
              obtain ⟨q, hq, h1, h2, h3⟩ := ih2 e' htail
              exact ⟨q, List.mem_cons_of_mem p hq, h1, h2, by rw [← he]; exact h3⟩
            · rw [htail] at he
              simp [Except.map] at he
        | none =>
            match ha : acc.get p with
            | some c =>
                rw [resolveParents, hr, ha] at he
                rcases htail : resolveParents roots acc commit rest with e' | cs
                · rw [htail] at he
                  simp [Except.map] at he
                  obtain ⟨q, hq, h1, h2, h3⟩ := ih2 e' htail
                  exact ⟨q, List.mem_cons_of_mem p hq, h1, h2,
                    by rw [← he]; exact h3⟩
                · rw [htail] at he
                  simp [Except.map] at he
            | none =>
                rw [resolveParents, hr, ha] at he
                simp at he
                exact ⟨p, List.mem_cons_self p rest, hr, ha, he.symm⟩
      · intro cs hcs
        match hr : roots p with
        | some c =>
            rw [resolveParents, hr] at hcs
            rcases htail : resolveParents roots acc commit rest with e' | cs'
            · rw [htail] at hcs
              simp [Except.map] at hcs
            · rw [htail] at hcs
              simp [Except.map] at hcs
              rw [← hcs, List.map_cons, hr, ih3 cs' htail]
        | none =>
            match ha : acc.get p with
            | some c =>
                rw [resolveParents, hr, ha] at hcs
                rcases htail : resolveParents roots acc commit rest with e' | cs'
                · rw [htail] at hcs
                  simp [Except.map] at hcs
                · rw [htail] at hcs
                  simp [Except.map] at hcs
                  rw [← hcs, List.map_cons, hr, ha, ih3 cs' htail]
                  simp
            | none =>
                rw [resolveParents, hr, ha] at hcs
                simp at hcs

/-- Witness for `parent_resolution_contract`: with empty roots and an empty
accumulator, resolving parent 3 of commit 5 fails naming both ids. -/
theorem parent_resolution_contract_witness :
    resolveParents (fun _ => none) GitimportAccumulator.new 5 [3] =
      .error (.missingParent 3 5) := by
  have h := (parent_resolution_contract (fun _ => none)
    GitimportAccumulator.new 5 [3]).1.mpr
    ⟨3, by simp, rfl, rfl⟩
  rcases hres : resolveParents (fun _ => none) GitimportAccumulator.new 5 [3]
    with e | cs
  · obtain ⟨q, hq, _, _, he⟩ := (parent_resolution_contract (fun _ => none)
      GitimportAccumulator.new 5 [3]).2.1 e hres
    rw [List.mem_singleton] at hq
    subst hq
    rw [he]
  · rw [hres] at h
    simp [exceptIsError] at h

/-! ### The order-preserving buffered stage (lib.rs lines 213-242)

`try_buffered(C)` runs up to `C` extraction futures concurrently but yields
their results in submission order.  Its semantics is embedded as a small
nondeterministic machine: tasks are submitted in input order into an ordered
in-flight window of size at most `C`; any in-flight task may complete at any
time (this is the completion-order nondeterminism of the task pool); only the
oldest in-flight task, once complete, is delivered downstream. -/

/-- A configuration of the buffered stage: inputs not yet submitted, the
ordered in-flight window (each slot marked when its task has completed), and
the results already delivered downstream, oldest first. -/
structure BufState (A B : Type) where
  pending : List A
  inflight : List (A × Bool)
  output : List B

/-- One scheduling step of `try_buffered C f`: submit the next input while
the window has room, let an arbitrary in-flight task complete, or deliver the
result of the oldest in-flight task once it is complete. -/
inductive BufStep (C : Nat) {A B : Type} (f : A → B) :
    BufState A B → BufState A B → Prop
  | submit (x : A) (rest : List A) (infl : List (A × Bool)) (out : List B) :
      infl.length < C →
      BufStep C f ⟨x :: rest, infl, out⟩ ⟨rest, infl ++ [(x, false)], out⟩
  | complete (pend : List A) (pre : List (A × Bool)) (x : A)
      (post : List (A × Bool)) (out : List B) :
      BufStep C f ⟨pend, pre ++ (x, false) :: post, out⟩
        ⟨pend, pre ++ (x, true) :: post, out⟩
  | deliver (pend : List A) (x : A) (infl : List (A × Bool)) (out : List B) :
      BufStep C f ⟨pend, (x, true) :: infl, out⟩ ⟨pend, infl, out ++ [f x]⟩

/-- Modelled from the spec: order-preserving delivery means the k-th result
observed downstream is the result of the k-th submitted id, i.e. the
delivered sequence is exactly the input sequence mapped through the task. -/
def specOrderedDelivery {A B : Type} (f : A → B) (xs : List A) : List B :=
  xs.map f

theorem bufStep_invariant (C : Nat) {A B : Type} (f : A → B)
    (s s' : BufState A B) (h : BufStep C f s s') :
    s'.output ++ s'.inflight.map (fun xb => f xb.1) ++ s'.pending.map f =
      s.output ++ s.inflight.map (fun xb => f xb.1) ++ s.pending.map f := by
  cases h with
  | submit x rest infl out hlt => simp
  | complete pend pre x post out => simp
  | deliver pend x infl out => simp

theorem bufRun_invariant (C : Nat) {A B : Type} (f : A → B)
    (s s' : BufState A B)
    (h : Relation.ReflTransGen (BufStep C f) s s') :
    s'.output ++ s'.inflight.map (fun xb => f xb.1) ++ s'.pending.map f =
      s.output ++ s.inflight.map (fun xb => f xb.1) ++ s.pending.map f := by
  induction h with
  | refl => rfl
  | tail _hstep hlast ih => rw [bufStep_invariant C f _ _ hlast, ih]

/-! ### The import scheduler (lib.rs lines 156-332)

The remaining collaborators of `gitimport_acc` are bundled in an environment:
the configuration surface (`GitimportPreferences`), the ordering collaborator
(`GitimportTarget`: roots, commit count, commit list) and the object reader.
The scheduler itself is embedded as the sequential denotation of the stream
pipeline — faithful because `try_buffered` delivers extraction results in
submission order (the machine above), the finalize stage is an `and_then`
processed one item at a time, and batches are awaited one at a time. -/

/-- Model of `ExtractedCommit` (the extractor collaborator's output): parsed metadata,
the commit's root tree id, the parent tree ids, and the raw commit bytes. -/
structure Extracted where
  metadata : CommitMetadata
  tree : Oid
  parentTrees : List Oid
  originalCommit : Bytes
  deriving Repr, DecidableEq

/-- The tuple a buffered extraction task delivers to the finalize stage. -/
structure TaskOut where
  metadata : CommitMetadata
  fileChanges : List (MPath × Change)
  originalCommit : Bytes
  tree : Oid
  deriving Repr, DecidableEq

/-- The collaborators and configuration `gitimport_acc` consumes. -/
structure ImportEnv where
  concurrency : Nat
  dryRun : Bool
  nbCommits : Nat
  commits : List Oid
  roots : Oid → Option ChangesetId
  uploader : GitUploader
  extract : Oid → Except Err Extracted
  bonsaiDiff : Oid → List Oid → List (Except Err BonsaiDiffFileChange)
  getObject : Oid → Except Err ObjKind
  readRawObject : Oid → Except Err Bytes

/-- One extraction+diff task (the `map_ok` closure at lib.rs lines 213-241):
extract the commit, then resolve the `bonsai_diff` of its tree against its
parent trees through `find_file_changes`. -/
def extractTask (env : ImportEnv) (oid : Oid) :
    List Event × Except Err TaskOut :=
  match env.extract oid with
  | .error e => ([.extract_commit oid], .error e)
  | .ok ex =>
      match find_file_changes env.getObject env.uploader
          (env.bonsaiDiff ex.tree ex.parentTrees) with
      | (evs, .error e) =>
          ([.extract_commit oid, .bonsai_diff_call oid ex.tree ex.parentTrees]
            ++ evs, .error e)
      | (evs, .ok fc) =>
          ([.extract_commit oid, .bonsai_diff_call oid ex.tree ex.parentTrees]
            ++ evs,
           .ok ⟨ex.metadata, fc, ex.originalCommit, ex.tree⟩)

/-- The resume filter (`try_filter_map` at lib.rs lines 190-212): probe the
target store for each enumerated id in order; a hit is recorded into the
accumulator and the id dropped, a miss survives to extraction. -/
def filterCommits (env : ImportEnv) (acc : GitimportAccumulator) :
    List Oid → List Event × Except Err (GitimportAccumulator × List Oid)
  | [] => ([], .ok (acc, []))
  | oid :: rest =>
      match env.uploader.check_commit_uploaded oid with
      | .error e => ([.check_commit oid], .error e)
      | .ok (some bid) =>
          match filterCommits env (acc.insert oid bid) rest with
          | (evs, r) => (.check_commit oid :: evs, r)
      | .ok none =>
          match filterCommits env acc rest with
          | (evs, r) =>
              (.check_commit oid :: evs,
               r.map (fun ar => (ar.1, oid :: ar.2)))

/-- Finalization of one delivered extraction result (the `and_then` closure
at lib.rs lines 243-307): resolve parents from roots then the accumulator,
upload the raw tree and raw commit, mint the changeset, and record the new
mapping. -/
def finalizeOne (env : ImportEnv) (acc : GitimportAccumulator) (t : TaskOut) :
    List Event × Except Err ((IntCs × Sha1) × GitimportAccumulator) :=
  let oid := t.metadata.oid
  match resolveParents env.roots acc oid t.metadata.parents with
  | .error e => ([], .error e)
  | .ok bonsaiParents =>
      match env.readRawObject t.tree with
      | .error e => ([], .error e)
      | .ok treeBytes =>
          match env.uploader.upload_object t.tree treeBytes with
          | .error e => ([.upload_object t.tree], .error e)
          | .ok _ =>
              match env.uploader.upload_object oid t.originalCommit with
              | .error e =>
                  ([.upload_object t.tree, .upload_object oid], .error e)
              | .ok _ =>
                  match env.uploader.generate_changeset bonsaiParents
                      t.metadata t.fileChanges env.dryRun with
                  | .error e =>
                      ([.upload_object t.tree, .upload_object oid,
                        .generate_changeset oid bonsaiParents], .error e)
                  | .ok (intCs, bcsId) =>
                      ([.upload_object t.tree, .upload_object oid,
                        .generate_changeset oid bonsaiParents],
                       .ok ((intCs, oid_to_sha1 oid), acc.insert oid bcsId))

/-- The finalize stage over the whole delivered stream: items are processed
strictly in delivery order, threading the accumulator; a failed item yields
an error item (and performs no insert) while later items are still described,
since the chunking stage demands them before the error aborts the run. -/
def finalizeStream (env : ImportEnv) (acc : GitimportAccumulator) :
    List (List Event × Except Err TaskOut) →
      List (List Event × Except Err (IntCs × Sha1)) × GitimportAccumulator
  | [] => ([], acc)
  | (evs, .error e) :: rest =>
      match finalizeStream env acc rest with
      | (items, accEnd) => ((evs, .error e) :: items, accEnd)
  | (evs, .ok t) :: rest =>
      match finalizeOne env acc t with
      | (evs2, .error e) =>
          match finalizeStream env acc rest with
          | (items, accEnd) => ((evs ++ evs2, .error e) :: items, accEnd)
      | (evs2, .ok (out, accNew)) =>
          match finalizeStream env accNew rest with
          | (items, accEnd) => ((evs ++ evs2, .ok out) :: items, accEnd)

/-- Model of `.chunks(n)`: split a list into consecutive chunks of `n` items, the
last chunk possibly shorter. -/
def chunksList {A : Type} (n : Nat) : List A → List (List A)
  | [] => []
  | x :: xs => (x :: xs.take (n - 1)) :: chunksList n (xs.drop (n - 1))
  termination_by l => l.length
  decreasing_by
    simp only [List.length_cons, List.length_drop]
    omega

/-- Collecting one gathered chunk (`Vec<Result> -> Result<Vec>`): the first
error in the chunk wins; the events of every item of the chunk have already
occurred, since `chunks` gathers the whole chunk before it is collected. -/
def collectChunk :
    List (List Event × Except Err (IntCs × Sha1)) →
      List Event × Except Err (List (IntCs × Sha1))
  | [] => ([], .ok [])
  | (evs, .error e) :: rest =>
      (evs ++ (rest.map Prod.fst).flatten, .error e)
  | (evs, .ok v) :: rest =>
      match collectChunk rest with
      | (evs2, r) => (evs ++ evs2, r.map (fun vs => v :: vs))

/-- The batched commit stage (`try_for_each` at lib.rs lines 308-315):
chunks are collected and handed to `finalize_batch` strictly one at a time;
a chunk that collected to an error aborts the run without being handed to
the store. -/
def runBatches (env : ImportEnv) :
    List (List (List Event × Except Err (IntCs × Sha1))) →
      List Event × Except Err Unit
  | [] => ([], .ok ())
  | chunk :: rest =>
      match collectChunk chunk with
      | (evs, .error e) => (evs, .error e)
      | (evs, .ok batch) =>
          match env.uploader.finalize_batch env.dryRun batch with
          | .error e => (evs ++ [.finalize_batch batch], .error e)
          | .ok _ =>
              match runBatches env rest with
              | (evs2, r) => (evs ++ .finalize_batch batch :: evs2, r)

/-- Model of `gitimport_acc` (lib.rs lines 156-320): the end-to-end scheduler.  A zero
commit count returns the empty accumulator immediately; otherwise the commit
list is filtered by the resume probe, surviving ids are extracted and
diffed (with results delivered in submission order), finalized in order, and
committed in batches of `concurrency`.  The trace records collaborator calls
in pipeline-stage order. -/
def gitimport_acc (env : ImportEnv) :
    List Event × Except Err GitimportAccumulator :=
  if env.nbCommits = 0 then ([.get_nb_commits], .ok GitimportAccumulator.new)
  else
    match filterCommits env GitimportAccumulator.new env.commits with
    | (evs, .error e) =>
        ([.get_nb_commits, .list_commits] ++ evs, .error e)
    | (evs, .ok (acc1, survivors)) =>
        match finalizeStream env acc1 (survivors.map (extractTask env)) with
        | (items, accEnd) =>
            match runBatches env (chunksList env.concurrency items) with
            | (bevs, r) =>
                ([.get_nb_commits, .list_commits] ++ evs ++ bevs,
                 r.map (fun _ => accEnd))

/-- Model of `gitimport` (lib.rs lines 322-332): returns the accumulator's contents. -/
def gitimport (env : ImportEnv) :
    List Event × Except Err (List (Oid × ChangesetId)) :=
  match gitimport_acc env with
  | (evs, r) => (evs, r.map (fun a => a.inner))

/-- C1: order-preserving delivery of the parallel extraction+diff stage.
Any complete run of the `try_buffered concurrency` machine over the
submitted ids — under every possible completion order of the concurrent
extraction tasks — delivers downstream exactly the per-id extraction results
in submission order: the k-th result the finalize stage receives is the
result of the k-th surviving id submitted. -/
theorem buffered_delivery_order (env : ImportEnv) (C : Nat) (ids : List Oid)
    (s : BufState Oid (List Event × Except Err TaskOut))
    (h : Relation.ReflTransGen (BufStep C (extractTask env)) ⟨ids, [], []⟩ s)
    (hp : s.pending = []) (hi : s.inflight = []) :
    s.output = specOrderedDelivery (extractTask env) ids := by
  have hinv := bufRun_invariant C (extractTask env) _ _ h
  rw [hp, hi] at hinv
  simpa [specOrderedDelivery] using hinv

/-- A minimal concrete uploader for witnesses. -/
def sampleUploader : GitUploader :=
  ⟨fun _ => .ok none, fun _ _ _ d => .ok (d + 1), 0, fun _ _ => .ok (),
   fun _ _ _ _ => .ok (0, 0), fun _ _ => .ok ()⟩

/-- A minimal concrete environment for witnesses. -/
def sampleEnv : ImportEnv :=
  ⟨1, false, 1, [0], fun _ => none, sampleUploader,
   fun o => .ok ⟨⟨o, []⟩, o + 100, [], 5⟩, fun _ _ => [],
   fun _ => .ok (.blob 3), fun _ => .ok 7⟩

/-- Witness for `buffered_delivery_order`: a concrete complete run with one
submitted id (submit, complete, deliver). -/
theorem buffered_delivery_order_witness :
    (⟨[], [], [extractTask sampleEnv 0]⟩ :
        BufState Oid (List Event × Except Err TaskOut)).output =
      specOrderedDelivery (extractTask sampleEnv) [0] := by
  refine buffered_delivery_order sampleEnv 1 [0] _ ?_ rfl rfl
  exact Relation.ReflTransGen.tail (Relation.ReflTransGen.tail
    (Relation.ReflTransGen.tail Relation.ReflTransGen.refl
      (BufStep.submit 0 [] [] [] (by simp)))
    (BufStep.complete [] [] 0 [] []))
    (BufStep.deliver [] 0 [] [])

/-- C6: zero pending commits short-circuit.  When the up-front commit count
is zero `gitimport_acc` returns the empty accumulator at once, and its trace
is exactly the single count probe: no `list_commits`, no object-reader call
and no target-store operation is issued. -/
theorem zero_commits_early_exit (env : ImportEnv) (h : env.nbCommits = 0) :
    gitimport_acc env = ([.get_nb_commits], .ok GitimportAccumulator.new) := by
  simp [gitimport_acc, h]

/-- Witness for `zero_commits_early_exit` at a concrete environment. -/
theorem zero_commits_early_exit_witness :
    gitimport_acc ⟨1, false, 0, [], fun _ => none, sampleUploader,
        fun _ => .error (.external 0), fun _ _ => [], fun _ => .ok .tree,
        fun _ => .ok 0⟩ =
      ([.get_nb_commits], .ok GitimportAccumulator.new) :=
  zero_commits_early_exit _ rfl

/-! ### import_tree_as_single_bonsai_changeset (lib.rs lines 412-455) -/

/-- Model of `import_tree_as_single_bonsai_changeset`: extract the commit, diff its
tree against an empty set of parent trees (`HashSet::new()`), upload the raw
commit, mint a changeset with an empty parent list (`vec![]`), and finalize
it as a singleton batch. -/
def import_tree_as_single_bonsai_changeset (env : ImportEnv) (gitCsId : Oid) :
    List Event × Except Err ChangesetId :=
  match env.extract gitCsId with
  | .error e => ([.extract_commit gitCsId], .error e)
  | .ok ex =>
      match find_file_changes env.getObject env.uploader
          (env.bonsaiDiff ex.tree []) with
      | (evs, .error e) =>
          ([.extract_commit gitCsId, .bonsai_diff_call gitCsId ex.tree []]
            ++ evs, .error e)
      | (evs, .ok fc) =>
          let evs0 := [.extract_commit gitCsId,
            .bonsai_diff_call gitCsId ex.tree []] ++ evs
          match env.uploader.upload_object gitCsId ex.originalCommit with
          | .error e => (evs0 ++ [.upload_object gitCsId], .error e)
          | .ok _ =>
              match env.uploader.generate_changeset [] ex.metadata fc
                  env.dryRun with
              | .error e =>
                  (evs0 ++ [.upload_object gitCsId,
                    .generate_changeset ex.metadata.oid []], .error e)
              | .ok (cs, bid) =>
                  match env.uploader.finalize_batch env.dryRun
                      [(cs, oid_to_sha1 gitCsId)] with
                  | .error e =>
                      (evs0 ++ [.upload_object gitCsId,
                        .generate_changeset ex.metadata.oid [],
                        .finalize_batch [(cs, oid_to_sha1 gitCsId)]],
                       .error e)
                  | .ok _ =>
                      (evs0 ++ [.upload_object gitCsId,
                        .generate_changeset ex.metadata.oid [],
                        .finalize_batch [(cs, oid_to_sha1 gitCsId)]],
                       .ok bid)

/-- Events emitted by per-file resolution (blob fetches and file uploads). -/
def isReaderOrFileEvent : Event → Bool
  | .get_object _ => true
  | .upload_file _ _ => true
  | _ => false

theorem resolveFileChange_events (get : Oid → Except Err ObjKind)
    (u : GitUploader) (fc : BonsaiDiffFileChange) :
    ∀ ev ∈ (resolveFileChange get u fc).1, isReaderOrFileEvent ev = true := by
  cases fc with
  | changed path ty oid =>
      match hg : get oid with
      | .error e => simp [resolveFileChange, hg, isReaderOrFileEvent]
      | .ok .tree => simp [resolveFileChange, hg, isReaderOrFileEvent]
      | .ok .commit => simp [resolveFileChange, hg, isReaderOrFileEvent]
      | .ok (.tag t) => simp [resolveFileChange, hg, isReaderOrFileEvent]
      | .ok (.blob d) =>
          match hu : u.upload_file path ty oid d with
          | .error e =>
              intro ev hmem
              simp [resolveFileChange, hg, hu] at hmem
              rcases hmem with h | h <;> simp [h, isReaderOrFileEvent]
          | .ok c =>
              intro ev hmem
              simp [resolveFileChange, hg, hu] at hmem
              rcases hmem with h | h <;> simp [h, isReaderOrFileEvent]
  | changedReusedId path ty oid =>
      match hg : get oid with
      | .error e => simp [resolveFileChange, hg, isReaderOrFileEvent]
      | .ok .tree => simp [resolveFileChange, hg, isReaderOrFileEvent]
      | .ok .commit => simp [resolveFileChange, hg, isReaderOrFileEvent]
      | .ok (.tag t) => simp [resolveFileChange, hg, isReaderOrFileEvent]
      | .ok (.blob d) =>
          match hu : u.upload_file path ty oid d with
          | .error e =>
              intro ev hmem
              simp [resolveFileChange, hg, hu] at hmem
              rcases hmem with h | h <;> simp [h, isReaderOrFileEvent]
          | .ok c =>
              intro ev hmem
              simp [resolveFileChange, hg, hu] at hmem
              rcases hmem with h | h <;> simp [h, isReaderOrFileEvent]
  | deleted path => simp [resolveFileChange]

theorem findFileChangesList_events (get : Oid → Except Err ObjKind)
    (u : GitUploader) (changes : List (Except Err BonsaiDiffFileChange)) :
    ∀ ev ∈ (findFileChangesList get u changes).1,
      isReaderOrFileEvent ev = true := by
  induction changes with
  | nil => simp [findFileChangesList]
  | cons hd rest ih =>
      cases hd with
      | error e => simp [findFileChangesList]
      | ok fc =>
          rcases hres : resolveFileChange get u fc with ⟨evs, r⟩
          have hr := resolveFileChange_events get u fc
          rw [hres] at hr
          cases r with
          | error e =>
              intro ev hmem
              simp [findFileChangesList, hres] at hmem
              exact hr ev hmem
          | ok pc =>
              rcases hrest : findFileChangesList get u rest with ⟨evs2, r2⟩
              intro ev hmem
              simp [findFileChangesList, hres, hrest] at hmem
              rcases hmem with h | h
              · exact hr ev h
              · rw [hrest] at ih
                exact ih ev h

theorem find_file_changes_events (get : Oid → Except Err ObjKind)
    (u : GitUploader) (changes : List (Except Err BonsaiDiffFileChange)) :
    ∀ ev ∈ (find_file_changes get u changes).1,
      isReaderOrFileEvent ev = true := by
  rcases hl : findFileChangesList get u changes with ⟨evs, r⟩
  have := findFileChangesList_events get u changes
  rw [hl] at this
  intro ev hmem
  simp [find_file_changes, hl] at hmem
  exact this ev hmem

theorem import_tree_trace_events (env : ImportEnv) (gitCsId : Oid) :
    ∀ ev ∈ (import_tree_as_single_bonsai_changeset env gitCsId).1,
      ev = .extract_commit gitCsId
      ∨ (∃ t, ev = .bonsai_diff_call gitCsId t [])
      ∨ isReaderOrFileEvent ev = true
      ∨ ev = .upload_object gitCsId
      ∨ (∃ c, ev = .generate_changeset c [])
      ∨ (∃ b, ev = .finalize_batch b) := by
  intro ev hmem
  match hex : env.extract gitCsId with
  | .error e =>
      simp [import_tree_as_single_bonsai_changeset, hex] at hmem
      exact Or.inl hmem
  | .ok ex =>
      rcases hffc : find_file_changes env.getObject env.uploader
        (env.bonsaiDiff ex.tree []) with ⟨evs, r⟩
      have hevs := find_file_changes_events env.getObject env.uploader
        (env.bonsaiDiff ex.tree [])
      rw [hffc] at hevs
      cases r with
      | error e =>
          simp [import_tree_as_single_bonsai_changeset, hex, hffc] at hmem
          rcases hmem with h | h | h
          · exact Or.inl h
          · exact Or.inr (Or.inl ⟨ex.tree, h⟩)
          · exact Or.inr (Or.inr (Or.inl (hevs ev h)))
      | ok fc =>
          match hu : env.uploader.upload_object gitCsId ex.originalCommit with
          | .error e =>
              simp [import_tree_as_single_bonsai_changeset, hex, hffc, hu]
                at hmem
              rcases hmem with h | h | h | h
              · exact Or.inl h
              · exact Or.inr (Or.inl ⟨ex.tree, h⟩)
              · exact Or.inr (Or.inr (Or.inl (hevs ev h)))
              · exact Or.inr (Or.inr (Or.inr (Or.inl h)))
          | .ok _ =>
              match hg : env.uploader.generate_changeset [] ex.metadata fc
                  env.dryRun with
              | .error e =>
                  simp [import_tree_as_single_bonsai_changeset, hex, hffc,
                    hu, hg] at hmem
                  rcases hmem with h | h | h | h | h
                  · exact Or.inl h
                  · exact Or.inr (Or.inl ⟨ex.tree, h⟩)
                  · exact Or.inr (Or.inr (Or.inl (hevs ev h)))
                  · exact Or.inr (Or.inr (Or.inr (Or.inl h)))
                  · exact Or.inr (Or.inr (Or.inr (Or.inr (Or.inl
                      ⟨ex.metadata.oid, h⟩))))
              | .ok csbid =>
                  match hf : env.uploader.finalize_batch env.dryRun
                      [(csbid.1, oid_to_sha1 gitCsId)] with
                  | .error e =>
                      simp [import_tree_as_single_bonsai_changeset, hex, hffc,
                        hu, hg, hf] at hmem
                      rcases hmem with h | h | h | h | h | h
                      · exact Or.inl h
                      · exact Or.inr (Or.inl ⟨ex.tree, h⟩)
                      · exact Or.inr (Or.inr (Or.inl (hevs ev h)))
                      · exact Or.inr (Or.inr (Or.inr (Or.inl h)))
                      · exact Or.inr (Or.inr (Or.inr (Or.inr (Or.inl
                          ⟨ex.metadata.oid, h⟩))))
                      · exact Or.inr (Or.inr (Or.inr (Or.inr (Or.inr
                          ⟨[(csbid.1, oid_to_sha1 gitCsId)], h⟩))))
                  | .ok _ =>
                      simp [import_tree_as_single_bonsai_changeset, hex, hffc,
                        hu, hg, hf] at hmem
                      rcases hmem with h | h | h | h | h | h
                      · exact Or.inl h
                      · exact Or.inr (Or.inl ⟨ex.tree, h⟩)
                      · exact Or.inr (Or.inr (Or.inl (hevs ev h)))
                      · exact Or.inr (Or.inr (Or.inr (Or.inl h)))
                      · exact Or.inr (Or.inr (Or.inr (Or.inr (Or.inl
                          ⟨ex.metadata.oid, h⟩))))
                      · exact Or.inr (Or.inr (Or.inr (Or.inr (Or.inr
                          ⟨[(csbid.1, oid_to_sha1 gitCsId)], h⟩))))

/-- C10: `import_tree_as_single_bonsai_changeset` ignores the commit's
listed parents: every diff it performs is against an empty set of parent
trees, every changeset it mints is given an empty parent list — whatever
parents the extracted metadata carries — and when extraction succeeds the
diff against the empty parent set is actually performed. -/
theorem tree_import_no_parents (env : ImportEnv) (gitCsId : Oid) :
    (∀ c t p, Event.bonsai_diff_call c t p ∈
        (import_tree_as_single_bonsai_changeset env gitCsId).1 → p = [])
    ∧ (∀ c ps, Event.generate_changeset c ps ∈
        (import_tree_as_single_bonsai_changeset env gitCsId).1 → ps = [])
    ∧ (∀ ex, env.extract gitCsId = .ok ex →
        Event.bonsai_diff_call gitCsId ex.tree [] ∈
          (import_tree_as_single_bonsai_changeset env gitCsId).1) := by
  refine ⟨?_, ?_, ?_⟩
  · intro c t p hmem
    rcases import_tree_trace_events env gitCsId _ hmem with
      h | ⟨t', h⟩ | h | h | ⟨c', h⟩ | ⟨b, h⟩
    · simp at h
    · simp at h
      exact h.2.2
    · simp [isReaderOrFileEvent] at h
    · simp at h
    · simp at h
    · simp at h
  · intro c ps hmem
    rcases import_tree_trace_events env gitCsId _ hmem with
      h | ⟨t', h⟩ | h | h | ⟨c', h⟩ | ⟨b, h⟩
    · simp at h
    · simp at h
    · simp [isReaderOrFileEvent] at h
    · simp at h
    · simp at h
      exact h.2
    · simp at h
  · intro ex hex
    rcases hffc : find_file_changes env.getObject env.uploader
      (env.bonsaiDiff ex.tree []) with ⟨evs, r⟩
    cases r with
    | error e =>
        simp [import_tree_as_single_bonsai_changeset, hex, hffc]
    | ok fc =>
        match hu : env.uploader.upload_object gitCsId ex.originalCommit with
        | .error e =>
            simp [import_tree_as_single_bonsai_changeset, hex, hffc, hu]
        | .ok _ =>
            match hg : env.uploader.generate_changeset [] ex.metadata fc
                env.dryRun with
            | .error e =>
                simp [import_tree_as_single_bonsai_changeset, hex, hffc,
                  hu, hg]
            | .ok csbid =>
                match hf : env.uploader.finalize_batch env.dryRun
                    [(csbid.1, oid_to_sha1 gitCsId)] with
                | .error e =>
                    simp [import_tree_as_single_bonsai_changeset, hex, hffc,
                      hu, hg, hf]
                | .ok _ =>
                    simp [import_tree_as_single_bonsai_changeset, hex, hffc,
                      hu, hg, hf]

/-- Witness for `tree_import_no_parents`: the diff against the empty parent
set is performed at the sample environment. -/
theorem tree_import_no_parents_witness :
    Event.bonsai_diff_call 0 100 [] ∈
      (import_tree_as_single_bonsai_changeset sampleEnv 0).1 := by
  exact (tree_import_no_parents sampleEnv 0).2.2 ⟨⟨0, []⟩, 100, [], 5⟩ rfl

/-! ### Claim C4: the batched commit stage -/

/-- Returns `true` exactly on batch-finalize events. -/
def isBatchEvent : Event → Bool
  | .finalize_batch _ => true
  | _ => false

/-- The batch-finalize calls recorded in a trace. -/
def batchEvents (evs : List Event) : List Event :=
  evs.filter isBatchEvent

theorem chunksList_flatten {A : Type} (n : Nat) (items : List A) :
    (chunksList n items).flatten = items := by
  generalize hlen : items.length = len
  induction len using Nat.strong_induction_on generalizing items with
  | _ len ih =>
      cases items with
      | nil => simp [chunksList]
      | cons x xs =>
          rw [chunksList, List.flatten_cons]
          have hlt : (xs.drop (n - 1)).length < len := by
            rw [← hlen]
            simp [List.length_drop]
            omega
          rw [ih _ hlt _ rfl, List.cons_append, List.take_append_drop]

theorem chunksList_length {A : Type} (n : Nat) (hn : 0 < n)
    (items : List A) :
    ∀ b ∈ chunksList n items, 0 < b.length ∧ b.length ≤ n := by
  generalize hlen : items.length = len
  induction len using Nat.strong_induction_on generalizing items with
  | _ len ih =>
      cases items with
      | nil => simp [chunksList]
      | cons x xs =>
          intro b hb
          rw [chunksList, List.mem_cons] at hb
          cases hb with
          | inl hhd =>
              subst hhd
              constructor
              · simp
              · simp [List.length_take]
                omega
          | inr htl =>
              have hlt : (xs.drop (n - 1)).length < len := by
                rw [← hlen]
                simp [List.length_drop]
                omega
              exact ih _ hlt _ rfl b htl

theorem collectChunk_error_iff
    (chunk : List (List Event × Except Err (IntCs × Sha1))) :
    exceptIsError (collectChunk chunk).2 = true ↔
      ∃ it ∈ chunk, exceptIsError it.2 = true := by
  induction chunk with
  | nil => simp [collectChunk, exceptIsError]
  | cons hd rest ih =>
      obtain ⟨evs, r⟩ := hd
      cases r with
      | error e =>
          simp only [collectChunk]
          constructor
          · intro _
            exact ⟨(evs, .error e), List.mem_cons_self _ _, rfl⟩
          · intro _
            rfl
      | ok v =>
          rcases hrest : collectChunk rest with ⟨evs2, r2⟩
          rw [hrest] at ih
          simp only [collectChunk, hrest]
          constructor
          · intro herr
            rw [exceptIsError_map] at herr
            obtain ⟨it, hit, h⟩ := ih.mp herr
            exact ⟨it, List.mem_cons_of_mem _ hit, h⟩
          · rintro ⟨it, hit, h⟩
            rw [List.mem_cons] at hit
            cases hit with
            | inl heq =>
                subst heq
                simp [exceptIsError] at h
            | inr hmem =>
                rw [exceptIsError_map]
                exact ih.mpr ⟨it, hmem, h⟩

theorem collectChunk_events
    (chunk : List (List Event × Except Err (IntCs × Sha1))) :
    ∀ ev ∈ (collectChunk chunk).1, ∃ it ∈ chunk, ev ∈ it.1 := by
  induction chunk with
  | nil => simp [collectChunk]
  | cons hd rest ih =>
      obtain ⟨evs, r⟩ := hd
      cases r with
      | error e =>
          intro ev hmem
          simp only [collectChunk, List.mem_append] at hmem
          cases hmem with
          | inl h => exact ⟨(evs, .error e), List.mem_cons_self _ _, h⟩
          | inr h =>
              rw [List.mem_flatten] at h
              obtain ⟨l, hl, hev⟩ := h
              rw [List.mem_map] at hl
              obtain ⟨it, hit, heq⟩ := hl
              subst heq
              exact ⟨it, List.mem_cons_of_mem _ hit, hev⟩
      | ok v =>
          rcases hrest : collectChunk rest with ⟨evs2, r2⟩
          rw [hrest] at ih
          intro ev hmem
          simp only [collectChunk, hrest, List.mem_append] at hmem
          cases hmem with
          | inl h => exact ⟨(evs, .ok v), List.mem_cons_self _ _, h⟩
          | inr h =>
              obtain ⟨it, hit, hev⟩ := ih ev h
              exact ⟨it, List.mem_cons_of_mem _ hit, hev⟩

theorem runBatches_good_error (env : ImportEnv)
    (good : List (List (List Event × Except Err (IntCs × Sha1))))
    (bad : List (List Event × Except Err (IntCs × Sha1)))
    (rest : List (List (List Event × Except Err (IntCs × Sha1)))) (e : Err)
    (hgood : ∀ c ∈ good, ∃ v, (collectChunk c).2 = .ok v ∧
      env.uploader.finalize_batch env.dryRun v = .ok ())
    (hbad : (collectChunk bad).2 = .error e) :
    runBatches env (good ++ bad :: rest) =
      ((runBatches env good).1 ++ (collectChunk bad).1, .error e) := by
  induction good with
  | nil =>
      rcases hcb : collectChunk bad with ⟨evsb, rb⟩
      have hrb : rb = .error e := by rw [hcb] at hbad; exact hbad
      subst hrb
      simp [runBatches, hcb]
  | cons c good' ih =>
      obtain ⟨v, hv, hfin⟩ := hgood c (List.mem_cons_self c good')
      rcases hcc : collectChunk c with ⟨evsc, rc⟩
      have hrc : rc = .ok v := by rw [hcc] at hv; exact hv
      subst hrc
      have ih' := ih (fun c' hc' => hgood c' (List.mem_cons_of_mem c hc'))
      rcases hg' : runBatches env good' with ⟨evsg, rg⟩
      have hL : runBatches env (c :: (good' ++ bad :: rest)) =
          (evsc ++ .finalize_batch v ::
              (runBatches env (good' ++ bad :: rest)).1,
            (runBatches env (good' ++ bad :: rest)).2) := by
        rcases hr2 : runBatches env (good' ++ bad :: rest) with ⟨evs2, r2⟩
        simp [runBatches, hcc, hfin, hr2]
      have hR : runBatches env (c :: good') =
          (evsc ++ .finalize_batch v :: evsg, rg) := by
        simp [runBatches, hcc, hfin, hg']
      rw [List.cons_append, hL, ih', hR, hg']
      simp

theorem runBatches_all_good (env : ImportEnv)
    (good : List (List (List Event × Except Err (IntCs × Sha1))))
    (hgood : ∀ c ∈ good, ∃ v, (collectChunk c).2 = .ok v ∧
      env.uploader.finalize_batch env.dryRun v = .ok ())
    (hclean : ∀ c ∈ good, ∀ ev ∈ (collectChunk c).1, isBatchEvent ev = false) :
    ∃ vs : List (List (IntCs × Sha1)), vs.length = good.length
      ∧ batchEvents (runBatches env good).1 = vs.map Event.finalize_batch
      ∧ (runBatches env good).2 = .ok () := by
  induction good with
  | nil => exact ⟨[], rfl, rfl, rfl⟩
  | cons c good' ih =>
      obtain ⟨v, hv, hfin⟩ := hgood c (List.mem_cons_self c good')
      rcases hcc : collectChunk c with ⟨evsc, rc⟩
      have hrc : rc = .ok v := by rw [hcc] at hv; exact hv
      subst hrc
      obtain ⟨vs, hlen, hbe, hok⟩ :=
        ih (fun c' hc' => hgood c' (List.mem_cons_of_mem c hc'))
          (fun c' hc' => hclean c' (List.mem_cons_of_mem c hc'))
      rcases hrun : runBatches env good' with ⟨evs2, r2⟩
      rw [hrun] at hbe hok
      have hbe' : batchEvents evs2 = vs.map Event.finalize_batch := hbe
      have hok' : r2 = .ok () := hok
      have hcleanc := hclean c (List.mem_cons_self c good')
      rw [hcc] at hcleanc
      have hnone : evsc.filter isBatchEvent = [] := by
        rw [List.filter_eq_nil_iff]
        intro ev hev
        simp [hcleanc ev hev]
      have hL : runBatches env (c :: good') =
          (evsc ++ .finalize_batch v :: evs2, r2) := by
        simp [runBatches, hcc, hfin, hrun]
      refine ⟨v :: vs, by simp [hlen], ?_, ?_⟩
      · rw [hL]
        show (evsc ++ Event.finalize_batch v :: evs2).filter isBatchEvent = _
        rw [List.filter_append, hnone, List.filter_cons,
          if_pos (show isBatchEvent (Event.finalize_batch v) = true from rfl)]
        simp only [List.nil_append, List.map_cons]
        exact congrArg (fun l => Event.finalize_batch v :: l) hbe'
      · rw [hL]
        exact hok'

/-- C4: the batched commit stage.  Finalized results are grouped into
consecutive batches of the concurrency constant (chunks partition the stream
and, for a positive constant, are nonempty and of at most that size);
collecting a batch fails exactly when some element of it is an error; an
erroring batch contributes only its items' already-produced events — never a
batch-finalize call — and aborts the run with that error, while every batch
before it has already been handed to the store, one `finalize_batch` call
per earlier batch, in order and strictly one at a time (the fold embeds the
awaited, non-overlapping submission of `try_for_each`). -/
theorem batch_stage_contract (env : ImportEnv) :
    (∀ (items : List (List Event × Except Err (IntCs × Sha1))),
        (chunksList env.concurrency items).flatten = items)
    ∧ (0 < env.concurrency →
        ∀ (items : List (List Event × Except Err (IntCs × Sha1))),
        ∀ b ∈ chunksList env.concurrency items,
          0 < b.length ∧ b.length ≤ env.concurrency)
    ∧ (∀ chunk, exceptIsError (collectChunk chunk).2 = true ↔
        ∃ it ∈ chunk, exceptIsError it.2 = true)
    ∧ (∀ chunk, ∀ ev ∈ (collectChunk chunk).1, ∃ it ∈ chunk, ev ∈ it.1)
    ∧ (∀ good bad rest e,
        (∀ c ∈ good, ∃ v, (collectChunk c).2 = .ok v ∧
          env.uploader.finalize_batch env.dryRun v = .ok ()) →
        (collectChunk bad).2 = .error e →
        runBatches env (good ++ bad :: rest) =
          ((runBatches env good).1 ++ (collectChunk bad).1, .error e))
    ∧ (∀ good,
        (∀ c ∈ good, ∃ v, (collectChunk c).2 = .ok v ∧
          env.uploader.finalize_batch env.dryRun v = .ok ()) →
        (∀ c ∈ good, ∀ ev ∈ (collectChunk c).1, isBatchEvent ev = false) →
        ∃ vs : List (List (IntCs × Sha1)), vs.length = good.length
          ∧ batchEvents (runBatches env good).1 = vs.map Event.finalize_batch
          ∧ (runBatches env good).2 = .ok ()) := by
  exact ⟨fun items => chunksList_flatten env.concurrency items,
    fun hn items => chunksList_length env.concurrency hn items,
    collectChunk_error_iff,
    collectChunk_events,
    fun good bad rest e hg hb =>
      runBatches_good_error env good bad rest e hg hb,
    fun good hg hc => runBatches_all_good env good hg hc⟩

/-- Witness for `batch_stage_contract`: one good batch followed by one
erroring batch at the sample environment — the good batch is handed to the
store and the run aborts with the bad batch's error. -/
theorem batch_stage_contract_witness :
    runBatches sampleEnv
        ([[([], .ok (1, 1))]] ++ [([], .error (.external 0))] :: []) =
      ((runBatches sampleEnv [[([], .ok (1, 1))]]).1 ++
        (collectChunk [([], .error (.external 0))]).1, .error (.external 0)) := by
  refine (batch_stage_contract sampleEnv).2.2.2.2.1
    [[([], .ok (1, 1))]] [([], .error (.external 0))] [] (.external 0) ?_ rfl
  intro c hc
  rw [List.mem_singleton] at hc
  subst hc
  exact ⟨[(1, 1)], rfl, rfl⟩

/-! ### Claim C3: the resume filter drops already-imported commits -/

/-- Predicate `eventAvoids oid ev`: the observable call `ev` is not work performed for
commit `oid` — it is no extraction, diff, raw-object upload or changeset
mint tagged with `oid`, and no batch handed to the store carries `oid`'s
sha. -/
def eventAvoids (oid : Oid) : Event → Prop
  | .extract_commit o => o ≠ oid
  | .bonsai_diff_call o _ _ => o ≠ oid
  | .upload_object o => o ≠ oid
  | .generate_changeset o _ => o ≠ oid
  | .finalize_batch b => ∀ x ∈ b, x.2 ≠ oid_to_sha1 oid
  | _ => True

theorem isReaderOrFileEvent_avoids (oid : Oid) (ev : Event)
    (h : isReaderOrFileEvent ev = true) : eventAvoids oid ev := by
  cases ev <;> simp_all [isReaderOrFileEvent, eventAvoids]

theorem filterCommits_survivors (env : ImportEnv) :
    ∀ (commits : List Oid) (acc : GitimportAccumulator) (evs : List Event)
      (a1 : GitimportAccumulator) (surv : List Oid),
      filterCommits env acc commits = (evs, .ok (a1, surv)) →
      ∀ o ∈ surv, env.uploader.check_commit_uploaded o = .ok none := by
  intro commits
  induction commits with
  | nil =>
      intro acc evs a1 surv h o ho
      simp [filterCommits] at h
      obtain ⟨h1, h2, h3⟩ := h
      subst h3
      simp at ho
  | cons c rest ih =>
      intro acc evs a1 surv h o ho
      match hc : env.uploader.check_commit_uploaded c with
      | .error e => simp [filterCommits, hc] at h
      | .ok (some b) =>
          rcases hrec : filterCommits env (acc.insert c b) rest
            with ⟨evs2, r2⟩
          cases r2 with
          | error e2 => simp [filterCommits, hc, hrec] at h
          | ok p2 =>
              obtain ⟨a2, surv2⟩ := p2
              simp [filterCommits, hc, hrec] at h
              obtain ⟨h1, h2, h3⟩ := h
              subst h3
              exact ih _ _ _ _ hrec o ho
      | .ok none =>
          rcases hrec : filterCommits env acc rest with ⟨evs2, r2⟩
          cases r2 with
          | error e2 =>
              simp [filterCommits, hc, hrec, Except.map] at h
          | ok p2 =>
              obtain ⟨a2, surv2⟩ := p2
              simp [filterCommits, hc, hrec, Except.map] at h
              obtain ⟨h1, h2, h3⟩ := h
              subst h3
              rw [List.mem_cons] at ho
              cases ho with
              | inl heq => rw [heq]; exact hc
              | inr hmem => exact ih _ _ _ _ hrec o hmem

theorem filterCommits_get (env : ImportEnv) (oid : Oid) (bid : ChangesetId)
    (hcheck : env.uploader.check_commit_uploaded oid = .ok (some bid)) :
    ∀ (commits : List Oid) (acc : GitimportAccumulator) (evs : List Event)
      (a1 : GitimportAccumulator) (surv : List Oid),
      filterCommits env acc commits = (evs, .ok (a1, surv)) →
      (acc.get oid = some bid ∨ oid ∈ commits) →
      a1.get oid = some bid := by
  intro commits
  induction commits with
  | nil =>
      intro acc evs a1 surv h hd
      simp [filterCommits] at h
      obtain ⟨h1, h2, h3⟩ := h
      subst h2
      cases hd with
      | inl hacc => exact hacc
      | inr hmem => simp at hmem
  | cons c rest ih =>
      intro acc evs a1 surv h hd
      match hc : env.uploader.check_commit_uploaded c with
      | .error e => simp [filterCommits, hc] at h
      | .ok (some b) =>
          rcases hrec : filterCommits env (acc.insert c b) rest
            with ⟨evs2, r2⟩
          cases r2 with
          | error e2 => simp [filterCommits, hc, hrec] at h
          | ok p2 =>
              obtain ⟨a2, surv2⟩ := p2
              simp [filterCommits, hc, hrec] at h
              obtain ⟨h1, h2, h3⟩ := h
              subst h2
              by_cases hco : c = oid
              · subst hco
                have hb : b = bid := by
                  rw [hc] at hcheck
                  simp at hcheck
                  exact hcheck
                refine ih _ _ _ _ hrec (Or.inl ?_)
                rw [← hb]
                exact alistGet_lhmInsert_self c b acc.inner
              · refine ih _ _ _ _ hrec ?_
                cases hd with
                | inl hacc =>
                    refine Or.inl ?_
                    rw [show (acc.insert c b).get oid = acc.get oid from
                      alistGet_lhmInsert_ne c oid b acc.inner
                        (fun hh => hco hh.symm)]
                    exact hacc
                | inr hmem =>
                    rw [List.mem_cons] at hmem
                    cases hmem with
                    | inl heq => exact absurd heq.symm hco
                    | inr hm2 => exact Or.inr hm2
      | .ok none =>
          rcases hrec : filterCommits env acc rest with ⟨evs2, r2⟩
          cases r2 with
          | error e2 =>
              simp [filterCommits, hc, hrec, Except.map] at h
          | ok p2 =>
              obtain ⟨a2, surv2⟩ := p2
              simp [filterCommits, hc, hrec, Except.map] at h
              obtain ⟨h1, h2, h3⟩ := h
              subst h2
              refine ih _ _ _ _ hrec ?_
              cases hd with
              | inl hacc => exact Or.inl hacc
              | inr hmem =>
                  rw [List.mem_cons] at hmem
                  cases hmem with
                  | inl heq =>
                      subst heq
                      rw [hc] at hcheck
                      simp at hcheck
                  | inr hm2 => exact Or.inr hm2

theorem filterCommits_events (env : ImportEnv) :
    ∀ (commits : List Oid) (acc : GitimportAccumulator),
      ∀ ev ∈ (filterCommits env acc commits).1,
        ∃ o, ev = .check_commit o := by
  intro commits
  induction commits with
  | nil => intro acc ev hmem; simp [filterCommits] at hmem
  | cons c rest ih =>
      intro acc ev hmem
      match hc : env.uploader.check_commit_uploaded c with
      | .error e =>
          simp [filterCommits, hc] at hmem
          exact ⟨c, hmem⟩
      | .ok (some b) =>
          rcases hrec : filterCommits env (acc.insert c b) rest
            with ⟨evs2, r2⟩
          simp [filterCommits, hc, hrec] at hmem
          cases hmem with
          | inl heq => exact ⟨c, heq⟩
          | inr hm =>
              have := ih (acc.insert c b) ev
              rw [hrec] at this
              exact this hm
      | .ok none =>
          rcases hrec : filterCommits env acc rest with ⟨evs2, r2⟩
          simp [filterCommits, hc, hrec] at hmem
          cases hmem with
          | inl heq => exact ⟨c, heq⟩
          | inr hm =>
              have := ih acc ev
              rw [hrec] at this
              exact this hm

theorem extractTask_avoids (env : ImportEnv) (oid s : Oid) (hs : s ≠ oid)
    (hmeta : ∀ ex, env.extract s = .ok ex → ex.metadata.oid = s)
    (htree : ∀ ex, env.extract s = .ok ex → ex.tree ≠ oid) :
    (∀ ev ∈ (extractTask env s).1, eventAvoids oid ev)
    ∧ (∀ t, (extractTask env s).2 = .ok t →
        t.metadata.oid ≠ oid ∧ t.tree ≠ oid) := by
  match hex : env.extract s with
  | .error e =>
      constructor
      · intro ev hmem
        simp [extractTask, hex] at hmem
        rw [hmem]
        exact hs
      · intro t ht
        simp [extractTask, hex] at ht
  | .ok ex =>
      rcases hffc : find_file_changes env.getObject env.uploader
        (env.bonsaiDiff ex.tree ex.parentTrees) with ⟨evs, r⟩
      have hevs := find_file_changes_events env.getObject env.uploader
        (env.bonsaiDiff ex.tree ex.parentTrees)
      rw [hffc] at hevs
      cases r with
      | error e =>
          constructor
          · intro ev hmem
            simp [extractTask, hex, hffc] at hmem
            rcases hmem with h | h | h
            · rw [h]; exact hs
            · rw [h]; exact hs
            · exact isReaderOrFileEvent_avoids oid ev (hevs ev h)
          · intro t ht
            simp [extractTask, hex, hffc] at ht
      | ok fc =>
          constructor
          · intro ev hmem
            simp [extractTask, hex, hffc] at hmem
            rcases hmem with h | h | h
            · rw [h]; exact hs
            · rw [h]; exact hs
            · exact isReaderOrFileEvent_avoids oid ev (hevs ev h)
          · intro t ht
            simp [extractTask, hex, hffc] at ht
            rw [← ht]
            refine ⟨?_, htree ex hex⟩
            rw [show (⟨ex.metadata, fc, ex.originalCommit, ex.tree⟩ :
              TaskOut).metadata.oid = ex.metadata.oid from rfl,
              hmeta ex hex]
            exact hs

theorem finalizeOne_avoids (env : ImportEnv) (oid : Oid)
    (acc : GitimportAccumulator) (t : TaskOut)
    (hm : t.metadata.oid ≠ oid) (ht : t.tree ≠ oid) :
    (∀ ev ∈ (finalizeOne env acc t).1, eventAvoids oid ev)
    ∧ (∀ out acc', (finalizeOne env acc t).2 = .ok (out, acc') →
        out.2 ≠ oid_to_sha1 oid ∧ acc'.get oid = acc.get oid) := by
  match hp : resolveParents env.roots acc t.metadata.oid t.metadata.parents
    with
  | .error e =>
      constructor
      · intro ev hmem
        simp [finalizeOne, hp] at hmem
      · intro out acc' hr
        simp [finalizeOne, hp] at hr
  | .ok bonsaiParents =>
      match hraw : env.readRawObject t.tree with
      | .error e =>
          constructor
          · intro ev hmem
            simp [finalizeOne, hp, hraw] at hmem
          · intro out acc' hr
            simp [finalizeOne, hp, hraw] at hr
      | .ok treeBytes =>
          match hu1 : env.uploader.upload_object t.tree treeBytes with
          | .error e =>
              constructor
              · intro ev hmem
                simp [finalizeOne, hp, hraw, hu1] at hmem
                rw [hmem]
                exact ht
              · intro out acc' hr
                simp [finalizeOne, hp, hraw, hu1] at hr
          | .ok _ =>
              match hu2 : env.uploader.upload_object t.metadata.oid
                  t.originalCommit with
              | .error e =>
                  constructor
                  · intro ev hmem
                    simp [finalizeOne, hp, hraw, hu1, hu2] at hmem
                    rcases hmem with h | h
                    · rw [h]; exact ht
                    · rw [h]; exact hm
                  · intro out acc' hr
                    simp [finalizeOne, hp, hraw, hu1, hu2] at hr
              | .ok _ =>
                  match hg : env.uploader.generate_changeset bonsaiParents
                      t.metadata t.fileChanges env.dryRun with
                  | .error e =>
                      constructor
                      · intro ev hmem
                        simp [finalizeOne, hp, hraw, hu1, hu2, hg] at hmem
                        rcases hmem with h | h | h
                        · rw [h]; exact ht
                        · rw [h]; exact hm
                        · rw [h]; exact hm
                      · intro out acc' hr
                        simp [finalizeOne, hp, hraw, hu1, hu2, hg] at hr
                  | .ok ib =>
                      constructor
                      · intro ev hmem
                        simp [finalizeOne, hp, hraw, hu1, hu2, hg] at hmem
                        rcases hmem with h | h | h
                        · rw [h]; exact ht
                        · rw [h]; exact hm
                        · rw [h]; exact hm
                      · intro out acc' hr
                        simp [finalizeOne, hp, hraw, hu1, hu2, hg] at hr
                        constructor
                        · rw [← hr.1]
                          simp [oid_to_sha1]
                          exact hm
                        · rw [← hr.2]
                          exact alistGet_lhmInsert_ne t.metadata.oid oid
                            ib.2 acc.inner (fun hh => hm hh.symm)

theorem finalizeStream_avoids (env : ImportEnv) (oid : Oid) :
    ∀ (tasks : List (List Event × Except Err TaskOut))
      (acc : GitimportAccumulator),
      (∀ it ∈ tasks, (∀ ev ∈ it.1, eventAvoids oid ev)
        ∧ (∀ t, it.2 = .ok t → t.metadata.oid ≠ oid ∧ t.tree ≠ oid)) →
      (∀ it ∈ (finalizeStream env acc tasks).1,
          (∀ ev ∈ it.1, eventAvoids oid ev)
          ∧ (∀ v, it.2 = .ok v → v.2 ≠ oid_to_sha1 oid))
      ∧ (finalizeStream env acc tasks).2.get oid = acc.get oid := by
  intro tasks
  induction tasks with
  | nil =>
      intro acc h
      exact ⟨by simp [finalizeStream], rfl⟩
  | cons hd rest ih =>
      intro acc h
      obtain ⟨te, tr⟩ := hd
      have hhd := h (te, tr) (List.mem_cons_self _ _)
      cases tr with
      | error e =>
          rcases hfs : finalizeStream env acc rest with ⟨items, accEnd⟩
          have hrest := ih acc (fun it hit => h it (List.mem_cons_of_mem _ hit))
          rw [hfs] at hrest
          constructor
          · intro it hit
            simp only [finalizeStream, hfs, List.mem_cons] at hit
            cases hit with
            | inl heq =>
                subst heq
                exact ⟨hhd.1, fun v hv => by simp at hv⟩
            | inr hmem => exact hrest.1 it hmem
          · show (finalizeStream env acc ((te, Except.error e) :: rest)).2.get
                oid = acc.get oid
            simp only [finalizeStream, hfs]
            exact hrest.2
      | ok t =>
          have htp := hhd.2 t rfl
          have hone := finalizeOne_avoids env oid acc t htp.1 htp.2
          rcases hfo : finalizeOne env acc t with ⟨evs2, r2⟩
          rw [hfo] at hone
          cases r2 with
          | error e =>
              rcases hfs : finalizeStream env acc rest with ⟨items, accEnd⟩
              have hrest := ih acc
                (fun it hit => h it (List.mem_cons_of_mem _ hit))
              rw [hfs] at hrest
              constructor
              · intro it hit
                simp only [finalizeStream, hfo, hfs, List.mem_cons] at hit
                cases hit with
                | inl heq =>
                    subst heq
                    refine ⟨?_, fun v hv => by simp at hv⟩
                    intro ev hev
                    rw [List.mem_append] at hev
                    cases hev with
                    | inl h1 => exact hhd.1 ev h1
                    | inr h2 => exact hone.1 ev h2
                | inr hmem => exact hrest.1 it hmem
              · show (finalizeStream env acc ((te, Except.ok t) :: rest)).2.get
                    oid = acc.get oid
                simp only [finalizeStream, hfo, hfs]
                exact hrest.2
          | ok oa =>
              obtain ⟨out, accNew⟩ := oa
              have hout := hone.2 out accNew rfl
              rcases hfs : finalizeStream env accNew rest with ⟨items, accEnd⟩
              have hrest := ih accNew
                (fun it hit => h it (List.mem_cons_of_mem _ hit))
              rw [hfs] at hrest
              constructor
              · intro it hit
                simp only [finalizeStream, hfo, hfs, List.mem_cons] at hit
                cases hit with
                | inl heq =>
                    subst heq
                    constructor
                    · intro ev hev
                      rw [List.mem_append] at hev
                      cases hev with
                      | inl h1 => exact hhd.1 ev h1
                      | inr h2 => exact hone.1 ev h2
                    · intro v hv
                      simp at hv
                      rw [← hv]
                      exact hout.1
                | inr hmem => exact hrest.1 it hmem
              · show (finalizeStream env acc ((te, Except.ok t) :: rest)).2.get
                    oid = acc.get oid
                simp only [finalizeStream, hfo, hfs]
                rw [hrest.2]
                exact hout.2

theorem collectChunk_ok_values
    (chunk : List (List Event × Except Err (IntCs × Sha1)))
    (vs : List (IntCs × Sha1)) (h : (collectChunk chunk).2 = .ok vs) :
    ∀ x ∈ vs, ∃ it ∈ chunk, it.2 = .ok x := by
  induction chunk generalizing vs with
  | nil =>
      simp [collectChunk] at h
      subst h
      simp
  | cons hd rest ih =>
      obtain ⟨evs, r⟩ := hd
      cases r with
      | error e => simp [collectChunk] at h
      | ok v =>
          rcases hrest : collectChunk rest with ⟨evs2, r2⟩
          cases r2 with
          | error e2 => simp [collectChunk, hrest, Except.map] at h
          | ok vs2 =>
              simp [collectChunk, hrest, Except.map] at h
              subst h
              intro x hx
              rw [List.mem_cons] at hx
              cases hx with
              | inl heq =>
                  subst heq
                  exact ⟨(evs, .ok x), List.mem_cons_self _ _, rfl⟩
              | inr hmem =>
                  obtain ⟨it, hit, hval⟩ := ih vs2 (by rw [hrest]) x hmem
                  exact ⟨it, List.mem_cons_of_mem _ hit, hval⟩

theorem runBatches_avoids (env : ImportEnv) (oid : Oid) :
    ∀ (chunks : List (List (List Event × Except Err (IntCs × Sha1)))),
      (∀ c ∈ chunks, ∀ it ∈ c,
        (∀ ev ∈ it.1, eventAvoids oid ev)
        ∧ (∀ v, it.2 = .ok v → v.2 ≠ oid_to_sha1 oid)) →
      ∀ ev ∈ (runBatches env chunks).1, eventAvoids oid ev := by
  intro chunks
  induction chunks with
  | nil => intro h ev hmem; simp [runBatches] at hmem
  | cons c rest ih =>
      intro h ev hmem
      have hc := h c (List.mem_cons_self _ _)
      have hcev : ∀ ev2 ∈ (collectChunk c).1, eventAvoids oid ev2 := by
        intro ev2 hev2
        obtain ⟨it, hit, hin⟩ := collectChunk_events c ev2 hev2
        exact (hc it hit).1 ev2 hin
      rcases hcc : collectChunk c with ⟨evsc, rc⟩
      rw [hcc] at hcev
      cases rc with
      | error e =>
          simp only [runBatches, hcc] at hmem
          exact hcev ev hmem
      | ok batch =>
          have hbatch : eventAvoids oid (.finalize_batch batch) := by
            intro x hx
            obtain ⟨it, hit, hval⟩ :=
              collectChunk_ok_values c batch (by rw [hcc]) x hx
            exact (hc it hit).2 x hval
          match hf : env.uploader.finalize_batch env.dryRun batch with
          | .error e =>
              simp only [runBatches, hcc, hf] at hmem
              rw [List.mem_append, List.mem_singleton] at hmem
              cases hmem with
              | inl h1 => exact hcev ev h1
              | inr h2 => rw [h2]; exact hbatch
          | .ok _ =>
              rcases hrun : runBatches env rest with ⟨evs2, r2⟩
              simp only [runBatches, hcc, hf, hrun] at hmem
              rw [List.mem_append, List.mem_cons] at hmem
              rcases hmem with h1 | h2 | h3
              · exact hcev ev h1
              · rw [h2]; exact hbatch
              · have := ih (fun c2 hc2 => h c2 (List.mem_cons_of_mem _ hc2))
                  ev
                rw [hrun] at this
                exact this h3

/-- C3: the resume filter makes already-imported commits free.  For an
enumerated id whose store probe reports an existing changeset id, a
successful run records that mapping in the filter-stage accumulator and in
the final result; the id is dropped from the surviving list, so no work is
performed for it: every event of the trace avoids it — in particular no
extraction, no tree diff, no raw-object upload, no changeset mint is tagged
with it, and no batch handed to the store carries its sha.  (The collaborator
hypotheses say the up-front count matches the enumerated list and that
extraction returns metadata for the requested commit and tree ids distinct
from the skipped commit id, as in a content-addressed store.) -/
theorem resume_skip_idempotent (env : ImportEnv) (oid : Oid)
    (bid : ChangesetId)
    (hnb : env.nbCommits = env.commits.length)
    (hmem : oid ∈ env.commits)
    (hcheck : env.uploader.check_commit_uploaded oid = .ok (some bid))
    (hmeta : ∀ o ex, env.extract o = .ok ex → ex.metadata.oid = o)
    (htree : ∀ o ex, env.extract o = .ok ex → ex.tree ≠ oid)
    (accFinal : GitimportAccumulator) (trace : List Event)
    (hrun : gitimport_acc env = (trace, .ok accFinal)) :
    accFinal.get oid = some bid
    ∧ (∀ evs a1 surv,
        filterCommits env GitimportAccumulator.new env.commits =
          (evs, .ok (a1, surv)) → oid ∉ surv ∧ a1.get oid = some bid)
    ∧ (∀ ev ∈ trace, eventAvoids oid ev)
    ∧ Event.extract_commit oid ∉ trace
    ∧ Event.upload_object oid ∉ trace
    ∧ (∀ ps, Event.generate_changeset oid ps ∉ trace)
    ∧ (∀ b, Event.finalize_batch b ∈ trace →
        ∀ x ∈ b, x.2 ≠ oid_to_sha1 oid) := by
  have hnbne : ¬ (env.nbCommits = 0) := by
    rw [hnb]
    intro h0
    rw [List.length_eq_zero] at h0
    rw [h0] at hmem
    simp at hmem
  rcases hfc : filterCommits env GitimportAccumulator.new env.commits
    with ⟨evs, rf⟩
  cases rf with
  | error e => simp [gitimport_acc, hnbne, hfc] at hrun
  | ok p =>
      obtain ⟨acc1, surv⟩ := p
      have hsurvne : oid ∉ surv := by
        intro hmem2
        have := filterCommits_survivors env env.commits
          GitimportAccumulator.new evs acc1 surv hfc oid hmem2
        rw [hcheck] at this
        simp at this
      have hacc1 : acc1.get oid = some bid :=
        filterCommits_get env oid bid hcheck env.commits
          GitimportAccumulator.new evs acc1 surv hfc (Or.inr hmem)
      have htasks : ∀ it ∈ surv.map (extractTask env),
          (∀ ev ∈ it.1, eventAvoids oid ev)
          ∧ (∀ t, it.2 = .ok t → t.metadata.oid ≠ oid ∧ t.tree ≠ oid) := by
        intro it hit
        rw [List.mem_map] at hit
        obtain ⟨s, hsm, heq⟩ := hit
        subst heq
        have hsne : s ≠ oid := fun hh => hsurvne (hh ▸ hsm)
        exact extractTask_avoids env oid s hsne
          (fun ex hex => hmeta s ex hex) (fun ex hex => htree s ex hex)
      have hstream := finalizeStream_avoids env oid
        (surv.map (extractTask env)) acc1 htasks
      rcases hfs : finalizeStream env acc1 (surv.map (extractTask env))
        with ⟨items, accEnd⟩
      rw [hfs] at hstream
      have hchunks : ∀ c ∈ chunksList env.concurrency items, ∀ it ∈ c,
          (∀ ev ∈ it.1, eventAvoids oid ev)
          ∧ (∀ v, it.2 = .ok v → v.2 ≠ oid_to_sha1 oid) := by
        intro c hcm it hit
        have hin : it ∈ items := by
          rw [← chunksList_flatten env.concurrency items, List.mem_flatten]
          exact ⟨c, hcm, hit⟩
        exact hstream.1 it hin
      have hbavoid := runBatches_avoids env oid
        (chunksList env.concurrency items) hchunks
      rcases hrb : runBatches env (chunksList env.concurrency items)
        with ⟨bevs, rr⟩
      rw [hrb] at hbavoid
      cases rr with
      | error e =>
          simp [gitimport_acc, hnbne, hfc, hfs, hrb, Except.map] at hrun
      | ok u =>
          simp [gitimport_acc, hnbne, hfc, hfs, hrb, Except.map] at hrun
          obtain ⟨htr, hacc⟩ := hrun
          have havoid : ∀ ev ∈ trace, eventAvoids oid ev := by
            intro ev hmem2
            rw [← htr] at hmem2
            simp only [List.cons_append, List.nil_append, List.mem_cons,
              List.mem_append] at hmem2
            rcases hmem2 with h1 | h2 | h3 | h4
            · rw [h1]; trivial
            · rw [h2]; trivial
            · obtain ⟨o, ho⟩ := by
                have := filterCommits_events env env.commits
                  GitimportAccumulator.new ev
                rw [hfc] at this
                exact this h3
              rw [ho]; trivial
            · exact hbavoid ev h4
          refine ⟨?_, ?_, havoid, ?_, ?_, ?_, ?_⟩
          · rw [← hacc, hstream.2]
            exact hacc1
          · intro evs2 a2 surv2 h2
            simp at h2
            obtain ⟨g1, g2, g3⟩ := h2
            constructor
            · rw [← g3]; exact hsurvne
            · rw [← g2]; exact hacc1
          · intro hmem2
            exact (havoid _ hmem2) rfl
          · intro hmem2
            exact (havoid _ hmem2) rfl
          · intro ps hmem2
            exact (havoid _ hmem2) rfl
          · intro b hmem2
            exact havoid _ hmem2

/-- A concrete environment where the single enumerated commit is already
imported. -/
def skipEnv : ImportEnv :=
  ⟨1, false, 1, [0], fun _ => none,
   ⟨fun _ => .ok (some 42), fun _ _ _ d => .ok (d + 1), 0, fun _ _ => .ok (),
    fun _ _ _ _ => .ok (0, 0), fun _ _ => .ok ()⟩,
   fun _ => .error (.external 0), fun _ _ => [], fun _ => .ok (.blob 3),
   fun _ => .ok 7⟩

/-- Witness for `resume_skip_idempotent`: at `skipEnv` the run succeeds with
the pre-existing mapping in the final accumulator. -/
theorem resume_skip_idempotent_witness :
    (⟨[(0, 42)]⟩ : GitimportAccumulator).get 0 = some 42 := by
  have hrun : gitimport_acc skipEnv =
      ([.get_nb_commits, .list_commits, .check_commit 0],
        .ok ⟨[(0, 42)]⟩) := by
    simp [gitimport_acc, skipEnv, filterCommits, finalizeStream, chunksList,
      runBatches, GitimportAccumulator.new, GitimportAccumulator.insert,
      lhmInsert, Except.map]
  exact (resume_skip_idempotent skipEnv 0 42 rfl (by simp [skipEnv]) rfl
    (fun o ex hex => Except.noConfusion hex)
    (fun o ex hex => Except.noConfusion hex)
    ⟨[(0, 42)]⟩ [.get_nb_commits, .list_commits, .check_commit 0] hrun).1

end GitImport
